import Mathlib

/-!
Verification of the `ffpuppet` helpers module (`src/ffpuppet/helpers.py`).

Strings are embedded as `List Char`.  The `SanitizerConfig` class is embedded
as an association list `Store` (mirroring the insertion-ordered Python dict
`self._options`), its regex tokenizer `re_delim = r":(?![\\|/])"` as the
structurally recursive `splitDelim`, and Python's `str.split("=")` as
`splitEq`.  Filesystem and process introspection (`os.path`, `psutil`, time)
are abstracted into an explicit `Sys` record and, for `wait_on_files`, a
trace of per-iteration observations (`Tick`).
-/

set_option autoImplicit false

namespace FFP

abbrev Chars := List Char

/-- The backslash character (written via its code point to keep source plain). -/
def bslash : Char := Char.ofNat 92

/-- The single-quote character. -/
def squote : Char := Char.ofNat 39

/-- The tab character. -/
def tabCh : Char := Char.ofNat 9

/-- Characters in the regex character class `[\\|/]` of `re_delim`. -/
def isPathSep (c : Char) : Bool := c = bslash || c = '|' || c = '/'

/-- True when the list does not start with a `[\\|/]` character: this is the
negative lookahead `(?![\\|/])` applied to the remainder of the input. -/
def nextNotPathSep : Chars → Bool
  | [] => true
  | c :: _ => !isPathSep c

/-- `re_delim.split`: split on every colon that is not immediately followed by
backslash, pipe or forward slash (`re.compile(r":(?![\\|/])").split`). -/
def splitDelim : Chars → List Chars
  | [] => [[]]
  | c :: rest =>
    if c = ':' ∧ nextNotPathSep rest = true then
      [] :: splitDelim rest
    else
      match splitDelim rest with
      | [] => [[c]]
      | t :: ts => (c :: t) :: ts

/-- Python `str.split("=")`: split on every equals sign. -/
def splitEq : Chars → List Chars
  | [] => [[]]
  | c :: rest =>
    if c = '=' then
      [] :: splitEq rest
    else
      match splitEq rest with
      | [] => [[c]]
      | t :: ts => (c :: t) :: ts

/-- Python `":".join`. -/
def joinColon : List Chars → Chars
  | [] => []
  | [t] => t
  | t :: ts => t ++ ':' :: joinColon ts

/-- The `_options` dict of `SanitizerConfig`: an insertion-ordered
association list from option names to values. -/
abbrev Store := List (Chars × Chars)

/-- Lookup in the `_options` dict. -/
def lookupS (k : Chars) : Store → Option Chars
  | [] => none
  | (k', v) :: rest => if k' = k then some v else lookupS k rest

/-- Python `key in self._options`. -/
def containsKey (k : Chars) (s : Store) : Bool := (lookupS k s).isSome

/-- Python dict assignment `self._options[key] = value`: replace the value of
an existing key in place (keeping its position), or append a new entry. -/
def setOpt : Store → Chars → Chars → Store
  | [], k, v => [(k, v)]
  | (k', v') :: rest, k, v =>
    if k' = k then (k, v) :: rest else (k', v') :: setOpt rest k v

/-- `SanitizerConfig.add`: insert only when the key is absent, unless
`overwrite` is set. -/
def add (s : Store) (k v : Chars) (overwrite : Bool) : Store :=
  if containsKey k s = false ∨ overwrite = true then setOpt s k v else s

/-- One `name=value` token as serialized by `"=".join([k, v])`. -/
def tokenOf (e : Chars × Chars) : Chars := e.1 ++ '=' :: e.2

/-- The `options` property: `":".join(["=".join([k, v]) for k, v in ...])`. -/
def options (s : Store) : Chars := joinColon (s.map tokenOf)

/-- The distinguished option name checked by `load_options`. -/
def suppName : Chars := "suppressions".data

/-- Abstraction of the filesystem / platform facilities the module consumes. -/
structure Sys where
  /-- `os.path.abspath(os.path.expanduser(...))`. -/
  abspath : Chars → Chars
  /-- `os.path.isfile`. -/
  isfile : Chars → Bool
  /-- whether `platform.system().lower().startswith("windows")`. -/
  windows : Bool
  /-- `os.path.join`. -/
  joinPath : Chars → Chars → Chars
  /-- `os.path.normcase(os.path.realpath(...))`. -/
  realnorm : Chars → Chars
  /-- `os.path.exists`. -/
  pexists : Chars → Bool

/-- The ways `load_options` can abort: the whitespace assertion, or the
`IOError` raised for a missing suppressions file. -/
inductive LoadError where
  | assertSpace
  | suppMissing (p : Chars)
deriving DecidableEq

/-- The token-processing loop of `load_options`.  The store is mutated in
place in the source, so the result carries the store as built so far together
with the error (if any) that aborted the loop. -/
def processTokens (fs : Sys) : List Chars → Store → Store × Option LoadError
  | [], s => (s, none)
  | t :: ts, s =>
    match splitEq t with
    | [n, v] =>
      if n = suppName then
        let v2 := fs.abspath v
        if fs.isfile v2 then processTokens fs ts (setOpt s n v2)
        else (s, some (LoadError.suppMissing v2))
      else processTokens fs ts (setOpt s n v)
    | _ => processTokens fs ts s

/-- Whether a raw option string contains a literal space, as tested by
`assert " " not in env[key]`. -/
def hasSpace (raw : Chars) : Bool := decide (' ' ∈ raw)

/-- The body of `load_options` once the raw string has been fetched from the
environment: the whitespace assertion followed by the token loop. -/
def loadRaw (fs : Sys) (s : Store) (raw : Chars) : Store × Option LoadError :=
  if hasSpace raw = true then (s, some LoadError.assertSpace)
  else processTokens fs (splitDelim raw) s

/-- `SanitizerConfig.load_options`: a no-op when the key is absent from the
environment, otherwise parse the raw value. -/
def load_options (fs : Sys) (s : Store) (env : Store) (key : Chars) :
    Store × Option LoadError :=
  match lookupS key env with
  | none => (s, none)
  | some raw => loadRaw fs s raw

/-- The values of well-formed `suppressions=...` tokens of a raw option
string, in order. -/
def suppOf (t : Chars) : Option Chars :=
  match splitEq t with
  | [n, v] => if n = suppName then some v else none
  | _ => none

/-- All suppressions values declared by a raw option string. -/
def suppValuesOf (raw : Chars) : List Chars := (splitDelim raw).filterMap suppOf

/-! Environment maps are also insertion-ordered string dicts, so they reuse
`Store`, `setOpt` and `lookupS`.  `envDel` is Python `del env[k]`. -/

/-- Python `del` on a dict entry (the keys of an environment dict are
unique, so removing the first binding removes the binding). -/
def envDel : Store → Chars → Store
  | [], _ => []
  | (k', v) :: rest, k => if k' = k then rest else (k', v) :: envDel rest k

def asanKey : Chars := "ASAN_OPTIONS".data
def lsanKey : Chars := "LSAN_OPTIONS".data
def ubsanKey : Chars := "UBSAN_OPTIONS".data
def symKey : Chars := "ASAN_SYMBOLIZER_PATH".data
def lpName : Chars := "log_path".data

/-- `"'%s'" % log_path`: the log path wrapped in single quotes. -/
def quoteVal (slog : Chars) : Chars := squote :: (slog ++ [squote])

/-- The ASAN store built by `configure_sanitizers` when `load_options` did
not raise: the loaded options followed by the fixed `add` calls, with
`log_path` forced. -/
def asanStore (fs : Sys) (env : Store) (slog : Chars) : Store :=
  let s0 := (load_options fs [] env asanKey).1
  let s1 := add s0 "abort_on_error".data "true".data false
  let s2 := add s1 "allocator_may_return_null".data "true".data false
  let s3 := add s2 "check_initialization_order".data "true".data false
  let s4 := add s3 "detect_leaks".data "false".data false
  let s5 := add s4 "disable_coredump".data "true".data false
  let s6 := add s5 lpName (quoteVal slog) true
  let s7 := add s6 "sleep_before_dying".data "0".data false
  let s8 := add s7 "strict_init_order".data "true".data false
  add s8 "symbolize".data "true".data false

/-- The LSAN store built by `configure_sanitizers`. -/
def lsanStore (fs : Sys) (env : Store) : Store :=
  let s0 := (load_options fs [] env lsanKey).1
  let s1 := add s0 "max_leaks".data "1".data false
  add s1 "print_suppressions".data "false".data false

/-- The UBSAN store built by `configure_sanitizers`. -/
def ubsanStore (fs : Sys) (env : Store) (slog : Chars) : Store :=
  let s0 := (load_options fs [] env ubsanKey).1
  let s1 := add s0 lpName (quoteVal slog) true
  add s1 "print_stacktrace".data "1".data false

/-- The symbolizer-resolution step at the end of `configure_sanitizers`.
On the Windows branch the source computes
`not os.path.join(target_dir, "llvm-symbolizer.exe")`, which is always
falsy (a non-empty string), so that branch never modifies the environment;
the already-set branch only warns.  Only the non-Windows lookup next to the
target binary can set the variable. -/
def symbolizerStep (fs : Sys) (env : Store) (target_dir : Chars) : Store :=
  if containsKey symKey env = false then
    if fs.windows = false then
      if fs.isfile (fs.joinPath target_dir "llvm-symbolizer".data) = true then
        setOpt env symKey (fs.joinPath target_dir "llvm-symbolizer".data)
      else env
    else env
  else env

/-- The environment after the ASAN block of `configure_sanitizers`
(`env["ASAN_OPTIONS"] = asan_config.options`). -/
def env1C (fs : Sys) (env : Store) (slog : Chars) : Store :=
  setOpt env asanKey (options (asanStore fs env slog))

/-- The environment after the LSAN block of `configure_sanitizers`. -/
def env2C (fs : Sys) (env : Store) (slog : Chars) : Store :=
  setOpt (env1C fs env slog) lsanKey (options (lsanStore fs (env1C fs env slog)))

/-- The environment after the UBSAN block of `configure_sanitizers`. -/
def env3C (fs : Sys) (env : Store) (slog : Chars) : Store :=
  setOpt (env2C fs env slog) ubsanKey
    (options (ubsanStore fs (env2C fs env slog) slog))

/-- `configure_sanitizers(env, target_dir, log_path)`.  A `load_options`
failure propagates as an exception in the source, modelled by `Except`.
Each sanitizer family loads from the environment as already mutated by the
previous families (the keys are distinct, so only the writes matter). -/
def configure_sanitizers (fs : Sys) (env : Store) (target_dir slog : Chars) :
    Except LoadError Store :=
  match (load_options fs [] env asanKey).2 with
  | some e => Except.error e
  | none =>
    match (load_options fs [] (env1C fs env slog) lsanKey).2 with
    | some e => Except.error e
    | none =>
      match (load_options fs [] (env2C fs env slog) ubsanKey).2 with
      | some e => Except.error e
      | none => Except.ok (symbolizerStep fs (env3C fs env slog) target_dir)

/-- The fixed table of unconditionally written environment toggles of
`prepare_environment`, in source order. -/
def toggleTable : List (Chars × Chars) :=
  [("G_SLICE".data, "always-malloc".data),
   ("MOZ_CC_RUN_DURING_SHUTDOWN".data, "1".data),
   ("MOZ_CRASHREPORTER".data, "1".data),
   ("MOZ_CRASHREPORTER_NO_REPORT".data, "1".data),
   ("MOZ_DISABLE_CONTENT_SANDBOX".data, "1".data),
   ("MOZ_DISABLE_GMP_SANDBOX".data, "1".data),
   ("MOZ_DISABLE_GPU_SANDBOX".data, "1".data),
   ("MOZ_DISABLE_NPAPI_SANDBOX".data, "1".data),
   ("MOZ_GDB_SLEEP".data, "0".data),
   ("XRE_NO_WINDOWS_CRASH_DIALOG".data, "1".data),
   ("XPCOM_DEBUG_BREAK".data, "warn".data)]

def skiaKey : Chars := "MOZ_SKIA_DISABLE_ASSERTS".data
def rustKey : Chars := "RUST_BACKTRACE".data

/-- Apply a table of unconditional dict assignments in order. -/
def applyTable (env : Store) (tbl : List (Chars × Chars)) : Store :=
  tbl.foldl (fun e kv => setOpt e kv.1 kv.2) env

/-- The environment after the fixed-toggle block of `prepare_environment`:
the unconditional table, then the two set-only-if-absent defaults. -/
def toggledEnv (osenv : Store) : Store :=
  let e1 := applyTable osenv toggleTable
  let e2 := if containsKey skiaKey e1 = true then e1 else setOpt e1 skiaKey "1".data
  if containsKey rustKey e2 = true then e2 else setOpt e2 rustKey "full".data

/-- One `env_mod` item: set when the value is a string, delete when `None`. -/
def applyMod (env : Store) (m : Chars × Option Chars) : Store :=
  match m.2 with
  | some v => setOpt env m.1 v
  | none => envDel env m.1

/-- `prepare_environment(target_dir, sanitizer_log, env_mod)`, with the
contents of `os.environ` passed explicitly as `osenv`. -/
def prepare_environment (fs : Sys) (osenv : Store) (target_dir slog : Chars)
    (env_mod : Option (List (Chars × Option Chars))) : Except LoadError Store :=
  match configure_sanitizers fs (toggledEnv osenv) target_dir slog with
  | Except.error e => Except.error e
  | Except.ok env2 =>
    Except.ok (match env_mod with
      | none => env2
      | some mods => mods.foldl applyMod env2)

/-! ### `wait_on_files` -/

/-- One iteration's worth of process/clock observations for the polling loop
of `wait_on_files`.  `raised` models a `psutil.AccessDenied` or
`psutil.NoSuchProcess` escaping from an unguarded call of the iteration
(caught by the outer `try`); `openFiles` is the aggregate open-file list for
the process and its polled children after the per-target `try` blocks (a
target whose enumeration failed simply contributes no paths); `now` is the
value `time.time()` would return at the deadline check. -/
structure Tick where
  raised : Bool
  running : Bool
  openFiles : List Chars
  now : ℚ

/-- The three `assert` statements guarding `wait_on_files`, in order. -/
inductive WaitAssert where
  | pollRateNeg
  | timeoutNeg
  | pollRateGtTimeout
deriving DecidableEq

/-- `[os.path.normcase(os.path.realpath(x)) for x in wait_files if os.path.exists(x)]`. -/
def normWait (sys : Sys) (files : List Chars) : List Chars :=
  (files.filter sys.pexists).map sys.realnorm

/-- The normalized deduplicated open-file list of one iteration
(`set(open_files)` then normalization). -/
def tickOpen (sys : Sys) (t : Tick) : List Chars :=
  t.openFiles.dedup.map sys.realnorm

/-- `any(x for x in open_files if x in wait_files)`. -/
def anyOpenHit (sys : Sys) (wf : List Chars) (t : Tick) : Bool :=
  (tickOpen sys t).any (fun x => decide (x ∈ wf))

/-- The polling loop of `wait_on_files` over a trace of observations.  The
second component counts executed `time.sleep(poll_rate)` calls; `none` means
the trace was too short to decide the call. -/
def waitLoop (sys : Sys) (wf : List Chars) (wait_end : ℚ) :
    List Tick → Option (Bool × Nat)
  | [] => none
  | t :: rest =>
    if t.raised = true then some (true, 0)
    else if t.running = false then some (true, 0)
    else if anyOpenHit sys wf t = false then some (true, 0)
    else if wait_end ≤ t.now then some (false, 0)
    else
      match waitLoop sys wf wait_end rest with
      | some (b, n) => some (b, n + 1)
      | none => none

/-- `wait_on_files(pid, wait_files, poll_rate, recursive, timeout)`.
`accessible` records whether `psutil.Process(pid)` succeeds; `t0` is the
`time.time()` entering the function.  A `wait_files`-empty loop condition is
checked before the loop: the loop body can then never run, and an exception
from the single short-circuited `is_running()` call would also return
`True`, so the result agrees with the source in every case. -/
def wait_on_files (sys : Sys) (accessible : Bool) (files : List Chars)
    (poll_rate timeout t0 : ℚ) (ticks : List Tick) :
    Except WaitAssert (Option (Bool × Nat)) :=
  if poll_rate < 0 then Except.error WaitAssert.pollRateNeg
  else if timeout < 0 then Except.error WaitAssert.timeoutNeg
  else if timeout < poll_rate then Except.error WaitAssert.pollRateGtTimeout
  else
    let wait_end := t0 + timeout
    let wf := normWait sys files
    if accessible = false then Except.ok (some (true, 0))
    else if wf = [] then Except.ok (some (true, 0))
    else Except.ok (waitLoop sys wf wait_end ticks)

/-- Modelled from the spec (claim C4's characterization of `WaitResult`): a
trace "times out" when the deadline is reached on some iteration at which a
watched file is still reported open, every earlier iteration also still
seeing a watched file open, the process running, and no escaping error. -/
def timesOut (sys : Sys) (wf : List Chars) (wait_end : ℚ) : List Tick → Bool
  | [] => false
  | t :: rest =>
    !t.raised && t.running && anyOpenHit sys wf t &&
      (decide (wait_end ≤ t.now) || timesOut sys wf wait_end rest)

/-! ### Well-formedness predicates used by the round-trip results -/

/-- Every colon of the list is immediately followed, inside the list, by a
`[\\|/]` character, so `splitDelim` never splits inside it. -/
def colonsGuarded : Chars → Bool
  | [] => true
  | c :: rest =>
    if c = ':' then
      match rest with
      | [] => false
      | d :: _ => isPathSep d && colonsGuarded rest
    else colonsGuarded rest

/-- Keys of the association list are pairwise distinct (true of every store
reachable through `add` / `setOpt` from the empty store). -/
def NodupKeys (s : Store) : Prop := (s.map Prod.fst).Nodup

/-- A non-degenerate option entry: a name that is non-empty, free of spaces,
equals signs and colons, does not start with a `[\\|/]` character and is not
the suppressions option; a value free of spaces and equals signs whose
colons are all guarded. -/
def GoodPair (e : Chars × Chars) : Prop :=
  e.1 ≠ [] ∧ ' ' ∉ e.1 ∧ '=' ∉ e.1 ∧ ':' ∉ e.1 ∧
    nextNotPathSep e.1 = true ∧ e.1 ≠ suppName ∧
    ' ' ∉ e.2 ∧ '=' ∉ e.2 ∧ colonsGuarded e.2 = true

instance decGoodPair (e : Chars × Chars) : Decidable (GoodPair e) := by
  unfold GoodPair
  infer_instance

/-- Entry conditions sufficient for the entry's serialized token to survive
`splitDelim` / `splitEq` intact. -/
def EntryGood (e : Chars × Chars) : Prop :=
  ' ' ∉ e.1 ∧ ' ' ∉ e.2 ∧ '=' ∉ e.1 ∧ '=' ∉ e.2 ∧
    colonsGuarded (tokenOf e) = true

instance decEntryGood (e : Chars × Chars) : Decidable (EntryGood e) := by
  unfold EntryGood
  infer_instance

/-- A store whose serialization re-splits into exactly its own tokens: all
entries well-formed, and every entry after the first yielding a token that
does not begin with a `[\\|/]` character. -/
def StoreGood (s : Store) : Prop :=
  (∀ e ∈ s, EntryGood e) ∧
    (∀ e ∈ s.tail, nextNotPathSep (tokenOf e) = true) ∧ NodupKeys s

/-- A store populated only through `add`, as in claim C1. -/
def buildStore (ops : List (Chars × Chars × Bool)) : Store :=
  ops.foldl (fun st o => add st o.1 o.2.1 o.2.2) []

/-- Modelled from the spec (claim C2's split rule as literally stated): a
colon is a boundary unless immediately preceded by the escape marker
(backslash) or immediately followed by a `[\\|/]` character.  `prev` is the
character just before the current position. -/
def claimSplit (prev : Option Char) : Chars → List Chars
  | [] => [[]]
  | c :: rest =>
    if c = ':' ∧ prev ≠ some bslash ∧ nextNotPathSep rest = true then
      [] :: claimSplit (some c) rest
    else
      match claimSplit (some c) rest with
      | [] => [[c]]
      | t :: ts => (c :: t) :: ts

/-! ### Concrete systems for witnesses and counterexamples -/

/-- A trivial filesystem where no file exists. -/
def sysNone : Sys where
  abspath := fun p => p
  isfile := fun _ => false
  windows := false
  joinPath := fun a b => a ++ '/' :: b
  realnorm := fun p => p
  pexists := fun _ => false

/-- A filesystem whose `abspath` is a fixed benign path and where every file
exists. -/
def sysConst : Sys where
  abspath := fun _ => "/tmp/f".data
  isfile := fun _ => true
  windows := false
  joinPath := fun a b => a ++ '/' :: b
  realnorm := fun p => p
  pexists := fun _ => true

/-- The environment produced by `prepare_environment` on an empty base
environment, used by concrete witnesses. -/
def envPrep0 : Store :=
  match prepare_environment sysNone [] "t".data "log".data none with
  | Except.ok e => e
  | Except.error _ => []

/-- The same prepared environment over `sysConst`, whose `abspath` output is
a fixed benign path. -/
def envPrepC : Store :=
  match prepare_environment sysConst [] "t".data "log".data none with
  | Except.ok e => e
  | Except.error _ => []

/-! ## Lemmas about the tokenizer -/

theorem splitDelim_ne_nil (s : Chars) : splitDelim s ≠ [] := by
  cases s with
  | nil => simp [splitDelim]
  | cons c rest =>
    simp only [splitDelim]
    split
    · simp
    · split <;> simp

theorem splitDelim_cons_split (rest : Chars) (h : nextNotPathSep rest = true) :
    splitDelim (':' :: rest) = [] :: splitDelim rest := by
  simp [splitDelim, h]

theorem splitDelim_cons_other (c : Char) (rest : Chars)
    (h : ¬(c = ':' ∧ nextNotPathSep rest = true)) :
    ∃ t ts, splitDelim rest = t :: ts ∧ splitDelim (c :: rest) = (c :: t) :: ts := by
  obtain ⟨t, ts, hts⟩ := List.exists_cons_of_ne_nil (splitDelim_ne_nil rest)
  refine ⟨t, ts, hts, ?_⟩
  simp only [splitDelim]
  rw [if_neg h, hts]

theorem joinColon_cons_cons (c : Char) (t : Chars) (ts : List Chars) :
    joinColon ((c :: t) :: ts) = c :: joinColon (t :: ts) := by
  cases ts <;> simp [joinColon]

theorem joinColon_splitDelim (s : Chars) : joinColon (splitDelim s) = s := by
  induction s with
  | nil => simp [splitDelim, joinColon]
  | cons c rest ih =>
    by_cases h : c = ':' ∧ nextNotPathSep rest = true
    · obtain ⟨hc, hn⟩ := h
      subst hc
      rw [splitDelim_cons_split rest hn]
      obtain ⟨t, ts, hts⟩ := List.exists_cons_of_ne_nil (splitDelim_ne_nil rest)
      rw [hts]
      rw [hts] at ih
      simp [joinColon, ih]
    · obtain ⟨t, ts, hts, hrw⟩ := splitDelim_cons_other c rest h
      rw [hrw, joinColon_cons_cons, ← hts, ih]

theorem isPathSep_ne_colon (d : Char) (h : isPathSep d = true) : d ≠ ':' := by
  intro hd
  subst hd
  revert h
  decide

theorem splitDelim_guarded (s : Chars) :
    ∀ t ∈ splitDelim s, colonsGuarded t = true := by
  induction s with
  | nil => simp [splitDelim, colonsGuarded]
  | cons c rest ih =>
    by_cases h : c = ':' ∧ nextNotPathSep rest = true
    · obtain ⟨hc, hn⟩ := h
      subst hc
      rw [splitDelim_cons_split rest hn]
      intro t ht
      rcases List.mem_cons.mp ht with h1 | h1
      · subst h1; rfl
      · exact ih t h1
    · obtain ⟨t, ts, hts, hrw⟩ := splitDelim_cons_other c rest h
      rw [hrw]
      intro u hu
      rcases List.mem_cons.mp hu with h1 | h1
      · subst h1
        by_cases hc : c = ':'
        · subst hc
          have hn : nextNotPathSep rest = false := by
            rcases Bool.eq_false_or_eq_true (nextNotPathSep rest) with h2 | h2
            · exact absurd ⟨rfl, h2⟩ h
            · exact h2
          cases rest with
          | nil => simp [nextNotPathSep] at hn
          | cons d rest' =>
            have hd : isPathSep d = true := by
              simpa [nextNotPathSep] using hn
            have hdc : ¬(d = ':' ∧ nextNotPathSep rest' = true) := by
              intro hcon
              exact isPathSep_ne_colon d hd hcon.1
            obtain ⟨t', ts', hts', hrw'⟩ := splitDelim_cons_other d rest' hdc
            rw [hrw'] at hts
            injection hts with h3 h4
            subst h3
            have hg : colonsGuarded (d :: t') = true := by
              apply ih
              rw [hrw']
              exact List.mem_cons_self _ _
            rw [show colonsGuarded (':' :: d :: t') =
                  (isPathSep d && colonsGuarded (d :: t')) from rfl, hd, hg]
            rfl
        · have hcg : colonsGuarded (c :: t) = colonsGuarded t := by
            simp [colonsGuarded, hc]
          rw [hcg]
          apply ih
          rw [hts]
          exact List.mem_cons_self t ts
      · apply ih
        rw [hts]
        exact List.mem_cons_of_mem t h1

theorem nextNotPathSep_congr (xs ys : Chars) (h : xs.head? = ys.head?) :
    nextNotPathSep xs = nextNotPathSep ys := by
  cases xs with
  | nil =>
    cases ys with
    | nil => rfl
    | cons d ys' => simp at h
  | cons c xs' =>
    cases ys with
    | nil => simp at h
    | cons d ys' =>
      simp at h
      subst h
      rfl

theorem splitDelim_head_cases (s : Chars) (t : Chars) (ts : List Chars)
    (h : splitDelim s = t :: ts) : t = [] ∨ t.head? = s.head? := by
  cases s with
  | nil =>
    left
    simp [splitDelim] at h
    exact h.1
  | cons c rest =>
    by_cases hc : c = ':' ∧ nextNotPathSep rest = true
    · obtain ⟨hc1, hc2⟩ := hc
      subst hc1
      rw [splitDelim_cons_split rest hc2] at h
      injection h with h1 _
      exact Or.inl h1.symm
    · obtain ⟨t', ts', _, hrw⟩ := splitDelim_cons_other c rest hc
      rw [hrw] at h
      injection h with h1 _
      right
      rw [← h1]
      rfl

theorem splitDelim_tail_heads (s : Chars) :
    ∀ t ∈ (splitDelim s).tail, nextNotPathSep t = true := by
  induction s with
  | nil => simp [splitDelim]
  | cons c rest ih =>
    by_cases h : c = ':' ∧ nextNotPathSep rest = true
    · obtain ⟨hc, hn⟩ := h
      subst hc
      rw [splitDelim_cons_split rest hn]
      intro t ht
      simp only [List.tail_cons] at ht
      obtain ⟨t0, ts0, hts0⟩ := List.exists_cons_of_ne_nil (splitDelim_ne_nil rest)
      rw [hts0] at ht
      rcases List.mem_cons.mp ht with h1 | h1
      · rcases splitDelim_head_cases rest t0 ts0 hts0 with h2 | h2
        · rw [h1, h2]; rfl
        · rw [h1, nextNotPathSep_congr t0 rest h2]
          exact hn
      · apply ih
        rw [hts0]
        exact h1
    · obtain ⟨t, ts, hts, hrw⟩ := splitDelim_cons_other c rest h
      rw [hrw]
      intro u hu
      simp only [List.tail_cons] at hu
      apply ih
      rw [hts]
      exact hu

/-! ### `splitEq` structure -/

theorem splitEq_ne_nil (s : Chars) : splitEq s ≠ [] := by
  cases s with
  | nil => simp [splitEq]
  | cons c rest =>
    simp only [splitEq]
    split
    · simp
    · split <;> simp

theorem splitEq_no_eq (a : Chars) (h : '=' ∉ a) : splitEq a = [a] := by
  induction a with
  | nil => rfl
  | cons c a' ih =>
    have hc : c ≠ '=' := fun hc => h (hc ▸ List.mem_cons_self c a')
    have ha : '=' ∉ a' := fun ha => h (List.mem_cons_of_mem c ha)
    simp only [splitEq, if_neg hc, ih ha]

theorem splitEq_sep (a b : Chars) (h : '=' ∉ a) :
    splitEq (a ++ '=' :: b) = a :: splitEq b := by
  induction a with
  | nil => simp [splitEq]
  | cons c a' ih =>
    have hc : c ≠ '=' := fun hc => h (hc ▸ List.mem_cons_self c a')
    have ha : '=' ∉ a' := fun ha => h (List.mem_cons_of_mem c ha)
    show splitEq (c :: (a' ++ '=' :: b)) = (c :: a') :: splitEq b
    simp only [splitEq, if_neg hc]
    rw [ih ha]

theorem splitEq_pair (a b : Chars) (ha : '=' ∉ a) (hb : '=' ∉ b) :
    splitEq (a ++ '=' :: b) = [a, b] := by
  rw [splitEq_sep a b ha, splitEq_no_eq b hb]

theorem splitEq_single_inv (t v : Chars) (h : splitEq t = [v]) :
    t = v ∧ '=' ∉ v := by
  induction t generalizing v with
  | nil =>
    simp [splitEq] at h
    subst h
    exact ⟨rfl, by simp⟩
  | cons c t' ih =>
    by_cases hc : c = '='
    · subst hc
      simp only [splitEq, if_pos rfl] at h
      injection h with h1 h2
      exact absurd h2 (splitEq_ne_nil t')
    · simp only [splitEq, if_neg hc] at h
      rcases h' : splitEq t' with _ | ⟨u, us⟩
      · exact absurd h' (splitEq_ne_nil t')
      · rw [h'] at h
        injection h with h1 h2
        have hus : us = [] := by
          cases us with
          | nil => rfl
          | cons x xs => simp at h2
        subst hus
        obtain ⟨ht', hv'⟩ := ih u h'
        subst ht'
        constructor
        · rw [← h1]
        · rw [← h1]
          intro hm
          rcases List.mem_cons.mp hm with h3 | h3
          · exact hc h3.symm
          · exact hv' h3

theorem splitEq_pair_inv (t n v : Chars) (h : splitEq t = [n, v]) :
    t = n ++ '=' :: v ∧ '=' ∉ n ∧ '=' ∉ v := by
  induction t generalizing n with
  | nil => simp [splitEq] at h
  | cons c t' ih =>
    by_cases hc : c = '='
    · subst hc
      simp only [splitEq, if_pos rfl] at h
      injection h with h1 h2
      obtain ⟨ht', hv⟩ := splitEq_single_inv t' v h2
      subst ht'
      rw [← h1]
      exact ⟨rfl, by simp, hv⟩
    · simp only [splitEq, if_neg hc] at h
      rcases h' : splitEq t' with _ | ⟨u, us⟩
      · exact absurd h' (splitEq_ne_nil t')
      · rw [h'] at h
        injection h with h1 h2
        have hus : us = [v] := h2
        subst hus
        obtain ⟨ht', hn', hv'⟩ := ih u h'
        subst ht'
        refine ⟨by rw [← h1]; rfl, ?_, hv'⟩
        rw [← h1]
        intro hm
        rcases List.mem_cons.mp hm with h3 | h3
        · exact hc h3.symm
        · exact hn' h3

/-! ### `colonsGuarded` and single-token splits -/

theorem colonsGuarded_nil : colonsGuarded [] = true := rfl

theorem colonsGuarded_cons_ne (c : Char) (rest : Chars) (hc : c ≠ ':') :
    colonsGuarded (c :: rest) = colonsGuarded rest := by
  simp [colonsGuarded, hc]

theorem colonsGuarded_colon (rest : Chars) (h : colonsGuarded (':' :: rest) = true) :
    ∃ d rest', rest = d :: rest' ∧ isPathSep d = true ∧ colonsGuarded rest = true := by
  cases rest with
  | nil => simp [colonsGuarded] at h
  | cons d rest' =>
    refine ⟨d, rest', rfl, ?_, ?_⟩
    · have : (isPathSep d && colonsGuarded (d :: rest')) = true := h
      exact (Bool.and_eq_true_iff.mp this).1
    · have : (isPathSep d && colonsGuarded (d :: rest')) = true := h
      exact (Bool.and_eq_true_iff.mp this).2

theorem colonsGuarded_append (a b : Chars) (ha : ':' ∉ a)
    (hb : colonsGuarded b = true) : colonsGuarded (a ++ b) = true := by
  induction a with
  | nil => simpa using hb
  | cons c a' ih =>
    have hc : c ≠ ':' := fun hc => ha (hc ▸ List.mem_cons_self c a')
    have ha' : ':' ∉ a' := fun h => ha (List.mem_cons_of_mem c h)
    rw [List.cons_append, colonsGuarded_cons_ne c (a' ++ b) hc]
    exact ih ha'

theorem colonsGuarded_of_no_colon (a : Chars) (ha : ':' ∉ a) :
    colonsGuarded a = true := by
  have := colonsGuarded_append a [] ha colonsGuarded_nil
  simpa using this

theorem splitDelim_single (t : Chars) (h : colonsGuarded t = true) :
    splitDelim t = [t] := by
  induction t with
  | nil => rfl
  | cons c rest ih =>
    by_cases hc : c = ':'
    · subst hc
      obtain ⟨d, rest', hr, hd, hg⟩ := colonsGuarded_colon rest h
      have hcond : ¬(':' = ':' ∧ nextNotPathSep rest = true) := by
        intro hcon
        rw [hr] at hcon
        simp [nextNotPathSep, hd] at hcon
      obtain ⟨t', ts', hts', hrw'⟩ := splitDelim_cons_other ':' rest hcond
      rw [hrw']
      rw [ih hg] at hts'
      injection hts' with h1 h2
      rw [h1, h2]
    · have hg : colonsGuarded rest = true := by
        rw [colonsGuarded_cons_ne c rest hc] at h
        exact h
      have hcond : ¬(c = ':' ∧ nextNotPathSep rest = true) := fun hcon => hc hcon.1
      obtain ⟨t', ts', hts', hrw'⟩ := splitDelim_cons_other c rest hcond
      rw [hrw']
      rw [ih hg] at hts'
      injection hts' with h1 h2
      rw [h1, h2]

theorem splitDelim_sep (t s : Chars) (hg : colonsGuarded t = true)
    (hn : nextNotPathSep s = true) :
    splitDelim (t ++ ':' :: s) = t :: splitDelim s := by
  induction t with
  | nil =>
    simpa using splitDelim_cons_split s hn
  | cons c t' ih =>
    by_cases hc : c = ':'
    · subst hc
      obtain ⟨d, t'', ht', hd, hg'⟩ := colonsGuarded_colon t' hg
      have hcond : ¬(':' = ':' ∧ nextNotPathSep (t' ++ ':' :: s) = true) := by
        intro hcon
        rw [ht'] at hcon
        simp [nextNotPathSep, hd] at hcon
      obtain ⟨u, us, hus, hrw⟩ := splitDelim_cons_other ':' (t' ++ ':' :: s) hcond
      rw [List.cons_append, hrw]
      rw [ih hg'] at hus
      injection hus with h1 h2
      rw [h1, h2]
    · have hg' : colonsGuarded t' = true := by
        rw [colonsGuarded_cons_ne c t' hc] at hg
        exact hg
      have hcond : ¬(c = ':' ∧ nextNotPathSep (t' ++ ':' :: s) = true) :=
        fun hcon => hc hcon.1
      obtain ⟨u, us, hus, hrw⟩ := splitDelim_cons_other c (t' ++ ':' :: s) hcond
      rw [List.cons_append, hrw]
      rw [ih hg'] at hus
      injection hus with h1 h2
      rw [h1, h2]

theorem joinColon_head (t : Chars) (ts : List Chars) (h : t ≠ []) :
    (joinColon (t :: ts)).head? = t.head? := by
  cases t with
  | nil => exact absurd rfl h
  | cons c t' => rw [joinColon_cons_cons]; rfl

theorem splitDelim_join (ts : List Chars) (hne : ts ≠ [])
    (hg : ∀ t ∈ ts, colonsGuarded t = true)
    (ht : ∀ t ∈ ts.tail, t ≠ [] ∧ nextNotPathSep t = true) :
    splitDelim (joinColon ts) = ts := by
  induction ts with
  | nil => exact absurd rfl hne
  | cons t ts' ih =>
    cases ts' with
    | nil =>
      show splitDelim (joinColon [t]) = [t]
      have : joinColon [t] = t := rfl
      rw [this]
      exact splitDelim_single t (hg t (List.mem_cons_self t []))
    | cons t2 ts'' =>
      have hjoin : joinColon (t :: t2 :: ts'') = t ++ ':' :: joinColon (t2 :: ts'') :=
        rfl
      rw [hjoin]
      have ht2 : t2 ≠ [] ∧ nextNotPathSep t2 = true :=
        ht t2 (List.mem_cons_self t2 ts'')
      have hn : nextNotPathSep (joinColon (t2 :: ts'')) = true := by
        rw [nextNotPathSep_congr (joinColon (t2 :: ts'')) t2
          (joinColon_head t2 ts'' ht2.1)]
        exact ht2.2
      rw [splitDelim_sep t (joinColon (t2 :: ts''))
        (hg t (List.mem_cons_self t (t2 :: ts''))) hn]
      congr 1
      apply ih
      · simp
      · intro u hu
        exact hg u (List.mem_cons_of_mem t hu)
      · intro u hu
        exact ht u (List.mem_cons_of_mem t2 hu)

/-! ### Store operations -/

theorem lookupS_setOpt_self (s : Store) (k v : Chars) :
    lookupS k (setOpt s k v) = some v := by
  induction s with
  | nil => simp [setOpt, lookupS]
  | cons e rest ih =>
    obtain ⟨k', v'⟩ := e
    by_cases h : k' = k
    · subst h
      simp [setOpt, lookupS]
    · simp [setOpt, lookupS, h, ih]

theorem lookupS_setOpt_ne (s : Store) (k k' v : Chars) (h : k' ≠ k) :
    lookupS k (setOpt s k' v) = lookupS k s := by
  induction s with
  | nil => simp [setOpt, lookupS, h]
  | cons e rest ih =>
    obtain ⟨k2, v2⟩ := e
    by_cases h2 : k2 = k'
    · subst h2
      simp [setOpt, lookupS, h]
    · simp only [setOpt, if_neg h2]
      by_cases h3 : k2 = k
      · simp [lookupS, h3]
      · simp [lookupS, h3, ih]

theorem setOpt_of_not_contains (s : Store) (k v : Chars)
    (h : containsKey k s = false) : setOpt s k v = s ++ [(k, v)] := by
  induction s with
  | nil => rfl
  | cons e rest ih =>
    obtain ⟨k', v'⟩ := e
    have hk : k' ≠ k := by
      intro hk
      subst hk
      simp [containsKey, lookupS] at h
    have hrest : containsKey k rest = false := by
      simp only [containsKey, lookupS, if_neg hk] at h
      exact h
    simp [setOpt, hk, ih hrest]

theorem lookupS_append_left (k : Chars) (a b : Store) (h : containsKey k a = true) :
    lookupS k (a ++ b) = lookupS k a := by
  induction a with
  | nil => simp [containsKey, lookupS] at h
  | cons e rest ih =>
    obtain ⟨k', v'⟩ := e
    by_cases hk : k' = k
    · simp [lookupS, hk]
    · simp only [containsKey, lookupS, if_neg hk] at h
      simp [lookupS, hk, ih h]

theorem lookupS_append_right (k : Chars) (a b : Store) (h : containsKey k a = false) :
    lookupS k (a ++ b) = lookupS k b := by
  induction a with
  | nil => rfl
  | cons e rest ih =>
    obtain ⟨k', v'⟩ := e
    have hk : k' ≠ k := by
      intro hk
      subst hk
      simp [containsKey, lookupS] at h
    simp only [containsKey, lookupS, if_neg hk] at h
    simp [lookupS, hk, ih h]

theorem containsKey_iff_mem (k : Chars) (s : Store) :
    containsKey k s = true ↔ k ∈ s.map Prod.fst := by
  induction s with
  | nil => simp [containsKey, lookupS]
  | cons e rest ih =>
    obtain ⟨k', v'⟩ := e
    by_cases h : k' = k
    · subst h
      simp [containsKey, lookupS]
    · simp only [containsKey, lookupS, if_neg h] at ih ⊢
      simp [ih, h, Ne.symm h]

theorem keys_setOpt_contains (s : Store) (k v : Chars) (h : containsKey k s = true) :
    (setOpt s k v).map Prod.fst = s.map Prod.fst := by
  induction s with
  | nil => simp [containsKey, lookupS] at h
  | cons e rest ih =>
    obtain ⟨k', v'⟩ := e
    by_cases hk : k' = k
    · subst hk
      simp [setOpt]
    · simp only [containsKey, lookupS, if_neg hk] at h
      simp [setOpt, hk, ih h]

theorem NodupKeys_setOpt (s : Store) (k v : Chars) (h : NodupKeys s) :
    NodupKeys (setOpt s k v) := by
  rcases Bool.eq_false_or_eq_true (containsKey k s) with hc | hc
  · rw [NodupKeys, keys_setOpt_contains s k v hc]
    exact h
  · rw [NodupKeys, setOpt_of_not_contains s k v hc]
    have hk : k ∉ s.map Prod.fst := by
      intro hm
      rw [← containsKey_iff_mem] at hm
      rw [hm] at hc
      exact absurd hc (by decide)
    rw [List.map_append]
    refine List.Nodup.append h (by simp) ?_
    intro a ha hb
    simp at hb
    subst hb
    exact hk ha

theorem setOpt_mem (s : Store) (k v : Chars) :
    ∀ e ∈ setOpt s k v, e ∈ s ∨ e = (k, v) := by
  induction s with
  | nil => simp [setOpt]
  | cons e0 rest ih =>
    obtain ⟨k', v'⟩ := e0
    by_cases hk : k' = k
    · subst hk
      intro e he
      simp only [setOpt, if_pos rfl] at he
      rcases List.mem_cons.mp he with h1 | h1
      · exact Or.inr h1
      · exact Or.inl (List.mem_cons_of_mem _ h1)
    · intro e he
      simp only [setOpt, if_neg hk] at he
      rcases List.mem_cons.mp he with h1 | h1
      · exact Or.inl (h1 ▸ List.mem_cons_self _ _)
      · rcases ih e h1 with h2 | h2
        · exact Or.inl (List.mem_cons_of_mem _ h2)
        · exact Or.inr h2

theorem setOpt_ne_nil (s : Store) (k v : Chars) : setOpt s k v ≠ [] := by
  cases s with
  | nil => simp [setOpt]
  | cons e rest =>
    obtain ⟨k', v'⟩ := e
    by_cases hk : k' = k <;> simp [setOpt, hk]

theorem lookupS_add_ne (s : Store) (k k' v : Chars) (ow : Bool) (h : k' ≠ k) :
    lookupS k (add s k' v ow) = lookupS k s := by
  rw [add]
  split
  · exact lookupS_setOpt_ne s k k' v h
  · rfl

theorem lookupS_add_overwrite (s : Store) (k v : Chars) :
    lookupS k (add s k v true) = some v := by
  rw [add]
  split
  · exact lookupS_setOpt_self s k v
  · rename_i hcon
    exact absurd (Or.inr rfl) hcon

theorem add_mem (s : Store) (k v : Chars) (ow : Bool) :
    ∀ e ∈ add s k v ow, e ∈ s ∨ e = (k, v) := by
  rw [add]
  split
  · exact setOpt_mem s k v
  · exact fun e he => Or.inl he

theorem NodupKeys_add (s : Store) (k v : Chars) (ow : Bool) (h : NodupKeys s) :
    NodupKeys (add s k v ow) := by
  rw [add]
  split
  · exact NodupKeys_setOpt s k v h
  · exact h

theorem NodupKeys_nil : NodupKeys ([] : Store) := by simp [NodupKeys]

theorem NodupKeys_cons_iff (k v : Chars) (s : Store) :
    NodupKeys ((k, v) :: s) ↔ k ∉ s.map Prod.fst ∧ NodupKeys s := by
  simp [NodupKeys, List.nodup_cons]

theorem lookupS_eq_none (k : Chars) (s : Store) (h : k ∉ s.map Prod.fst) :
    lookupS k s = none := by
  rcases hl : lookupS k s with _ | v
  · rfl
  · exfalso
    apply h
    rw [← containsKey_iff_mem, containsKey, hl]
    rfl

theorem containsKey_append (k : Chars) (a b : Store) :
    containsKey k (a ++ b) = (containsKey k a || containsKey k b) := by
  rcases Bool.eq_false_or_eq_true (containsKey k a) with h | h
  · rw [h, Bool.true_or, containsKey, lookupS_append_left k a b h]
    exact h
  · rw [h, Bool.false_or, containsKey, lookupS_append_right k a b h]
    rfl

theorem containsKey_setOpt_mono (s : Store) (k n v : Chars)
    (h : containsKey k s = true) : containsKey k (setOpt s n v) = true := by
  by_cases hn : n = k
  · subst hn
    rw [containsKey, lookupS_setOpt_self]
    rfl
  · rw [containsKey, lookupS_setOpt_ne s k n v hn]
    exact h

/-! ### Unfolding the token loop of `load_options` -/

theorem processTokens_cons_pair (fs : Sys) (t : Chars) (ts : List Chars)
    (acc : Store) (n v : Chars) (h : splitEq t = [n, v]) (hn : n ≠ suppName) :
    processTokens fs (t :: ts) acc = processTokens fs ts (setOpt acc n v) := by
  simp [processTokens, h, hn]

theorem processTokens_cons_supp_ok (fs : Sys) (t : Chars) (ts : List Chars)
    (acc : Store) (v : Chars) (h : splitEq t = [suppName, v])
    (hf : fs.isfile (fs.abspath v) = true) :
    processTokens fs (t :: ts) acc =
      processTokens fs ts (setOpt acc suppName (fs.abspath v)) := by
  simp [processTokens, h, hf]

theorem processTokens_cons_supp_bad (fs : Sys) (t : Chars) (ts : List Chars)
    (acc : Store) (v : Chars) (h : splitEq t = [suppName, v])
    (hf : fs.isfile (fs.abspath v) = false) :
    processTokens fs (t :: ts) acc =
      (acc, some (LoadError.suppMissing (fs.abspath v))) := by
  simp [processTokens, h, hf]

theorem processTokens_cons_skip (fs : Sys) (t : Chars) (ts : List Chars)
    (acc : Store) (h : ∀ n v, splitEq t ≠ [n, v]) :
    processTokens fs (t :: ts) acc = processTokens fs ts acc := by
  rcases hs : splitEq t with _ | ⟨a, _ | ⟨b, _ | ⟨c, rest⟩⟩⟩
  · simp [processTokens, hs]
  · simp [processTokens, hs]
  · exact absurd hs (h a b)
  · simp [processTokens, hs]

theorem suppOf_pair (t n v : Chars) (h : splitEq t = [n, v]) :
    suppOf t = if n = suppName then some v else none := by
  simp [suppOf, h]

theorem suppOf_skip (t : Chars) (h : ∀ n v, splitEq t ≠ [n, v]) :
    suppOf t = none := by
  rcases hs : splitEq t with _ | ⟨a, _ | ⟨b, _ | ⟨c, rest⟩⟩⟩
  · simp [suppOf, hs]
  · simp [suppOf, hs]
  · exact absurd hs (h a b)
  · simp [suppOf, hs]

theorem processTokens_clean (fs : Sys) :
    ∀ (s acc : Store), NodupKeys s →
    (∀ e ∈ s, '=' ∉ e.1 ∧ '=' ∉ e.2 ∧ e.1 ≠ suppName) →
    (∀ e ∈ s, containsKey e.1 acc = false) →
    processTokens fs (s.map tokenOf) acc = (acc ++ s, none)
  | [], acc, _, _, _ => by simp [processTokens]
  | (k, v) :: s', acc, hnd, hgood, hdisj => by
    obtain ⟨hk, hv, hks⟩ := hgood (k, v) (List.mem_cons_self _ _)
    have hpair : splitEq (tokenOf (k, v)) = [k, v] := splitEq_pair k v hk hv
    rw [List.map_cons, processTokens_cons_pair fs _ _ acc k v hpair hks]
    have hknotin : k ∉ s'.map Prod.fst := ((NodupKeys_cons_iff k v s').mp hnd).1
    have hnd' : NodupKeys s' := ((NodupKeys_cons_iff k v s').mp hnd).2
    have hset : setOpt acc k v = acc ++ [(k, v)] :=
      setOpt_of_not_contains acc k v (hdisj (k, v) (List.mem_cons_self _ _))
    rw [hset]
    rw [processTokens_clean fs s' (acc ++ [(k, v)]) hnd'
      (fun e he => hgood e (List.mem_cons_of_mem _ he))
      (fun e he => by
        rw [containsKey_append]
        have h1 : containsKey e.1 acc = false := hdisj e (List.mem_cons_of_mem _ he)
        have h2 : containsKey e.1 [(k, v)] = false := by
          have : e.1 ≠ k := by
            intro hek
            exact hknotin (hek ▸ List.mem_map_of_mem Prod.fst he)
          simp [containsKey, lookupS, Ne.symm this]
        rw [h1, h2]
        rfl)]
    simp

theorem processTokens_lookup (fs : Sys) (key : Chars) (hkey : key ≠ suppName) :
    ∀ (s acc : Store), NodupKeys s →
    (∀ e ∈ s, '=' ∉ e.1 ∧ '=' ∉ e.2) →
    (processTokens fs (s.map tokenOf) acc).2 = none →
    lookupS key (processTokens fs (s.map tokenOf) acc).1 =
      (match lookupS key s with
       | some v => some v
       | none => lookupS key acc)
  | [], acc, _, _, _ => by simp [processTokens, lookupS]
  | (k, v) :: s', acc, hnd, hgood, herr => by
    obtain ⟨hk, hv⟩ := hgood (k, v) (List.mem_cons_self _ _)
    have hpair : splitEq (tokenOf (k, v)) = [k, v] := splitEq_pair k v hk hv
    have hknotin : k ∉ s'.map Prod.fst := ((NodupKeys_cons_iff k v s').mp hnd).1
    have hnd' : NodupKeys s' := ((NodupKeys_cons_iff k v s').mp hnd).2
    have hgood' : ∀ e ∈ s', '=' ∉ e.1 ∧ '=' ∉ e.2 :=
      fun e he => hgood e (List.mem_cons_of_mem _ he)
    by_cases hks : k = suppName
    · subst hks
      rcases Bool.eq_false_or_eq_true (fs.isfile (fs.abspath v)) with hf | hf
      · rw [List.map_cons, processTokens_cons_supp_ok fs _ _ acc v hpair hf] at herr ⊢
        rw [processTokens_lookup fs key hkey s' _ hnd' hgood' herr]
        rw [lookupS_setOpt_ne acc key suppName (fs.abspath v) (Ne.symm hkey)]
        have hne : suppName ≠ key := Ne.symm hkey
        simp only [lookupS, if_neg hne]
      · rw [List.map_cons, processTokens_cons_supp_bad fs _ _ acc v hpair hf] at herr
        simp at herr
    · rw [List.map_cons, processTokens_cons_pair fs _ _ acc k v hpair hks] at herr ⊢
      rw [processTokens_lookup fs key hkey s' _ hnd' hgood' herr]
      by_cases hkk : k = key
      · subst hkk
        have hnone : lookupS k s' = none := lookupS_eq_none k s' hknotin
        rw [hnone, lookupS_setOpt_self]
        simp [lookupS]
      · rw [lookupS_setOpt_ne acc key k v hkk]
        simp only [lookupS, if_neg hkk]

theorem processTokens_err (fs : Sys) :
    ∀ (ts : List Chars) (acc : Store),
    ((∃ p, (processTokens fs ts acc).2 = some (LoadError.suppMissing p)) ↔
      ∃ v ∈ ts.filterMap suppOf, fs.isfile (fs.abspath v) = false)
  | [], acc => by simp [processTokens]
  | t :: ts', acc => by
    by_cases hp : ∃ n v, splitEq t = [n, v]
    · obtain ⟨n, v, hnv⟩ := hp
      by_cases hn : n = suppName
      · subst hn
        rcases Bool.eq_false_or_eq_true (fs.isfile (fs.abspath v)) with hf | hf
        · rw [processTokens_cons_supp_ok fs t ts' acc v hnv hf]
          rw [List.filterMap_cons, suppOf_pair t suppName v hnv]
          simp only [if_pos rfl]
          rw [processTokens_err fs ts' (setOpt acc suppName (fs.abspath v))]
          constructor
          · intro ⟨w, hw, hwf⟩
            exact ⟨w, List.mem_cons_of_mem v hw, hwf⟩
          · intro ⟨w, hw, hwf⟩
            rcases List.mem_cons.mp hw with h1 | h1
            · subst h1
              rw [hf] at hwf
              exact absurd hwf (by decide)
            · exact ⟨w, h1, hwf⟩
        · rw [processTokens_cons_supp_bad fs t ts' acc v hnv hf]
          rw [List.filterMap_cons, suppOf_pair t suppName v hnv]
          simp only [if_pos rfl]
          constructor
          · intro _
            exact ⟨v, List.mem_cons_self _ _, hf⟩
          · intro _
            exact ⟨fs.abspath v, rfl⟩
      · rw [processTokens_cons_pair fs t ts' acc n v hnv hn]
        rw [List.filterMap_cons, suppOf_pair t n v hnv, if_neg hn]
        exact processTokens_err fs ts' (setOpt acc n v)
    · have hskip : ∀ n v, splitEq t ≠ [n, v] := by
        intro n v hc
        exact hp ⟨n, v, hc⟩
      rw [processTokens_cons_skip fs t ts' acc hskip]
      rw [List.filterMap_cons, suppOf_skip t hskip]
      exact processTokens_err fs ts' acc

theorem processTokens_supp_origin (fs : Sys) :
    ∀ (ts : List Chars) (acc : Store),
    (processTokens fs ts acc).2 = none →
    ∀ w, lookupS suppName (processTokens fs ts acc).1 = some w →
      lookupS suppName acc = some w ∨ ∃ v ∈ ts.filterMap suppOf, w = fs.abspath v
  | [], acc => by
    intro _ w hw
    exact Or.inl hw
  | t :: ts', acc => by
    intro herr w hw
    by_cases hp : ∃ n v, splitEq t = [n, v]
    · obtain ⟨n, v, hnv⟩ := hp
      by_cases hn : n = suppName
      · subst hn
        rcases Bool.eq_false_or_eq_true (fs.isfile (fs.abspath v)) with hf | hf
        · rw [processTokens_cons_supp_ok fs t ts' acc v hnv hf] at herr hw
          rcases processTokens_supp_origin fs ts' _ herr w hw with h1 | h1
          · rw [lookupS_setOpt_self] at h1
            right
            refine ⟨v, ?_, (Option.some_inj.mp h1).symm⟩
            rw [List.filterMap_cons, suppOf_pair t suppName v hnv]
            simp
          · obtain ⟨u, hu, huw⟩ := h1
            right
            refine ⟨u, ?_, huw⟩
            rw [List.filterMap_cons, suppOf_pair t suppName v hnv]
            simp only [if_pos rfl]
            exact List.mem_cons_of_mem v hu
        · rw [processTokens_cons_supp_bad fs t ts' acc v hnv hf] at herr
          simp at herr
      · rw [processTokens_cons_pair fs t ts' acc n v hnv hn] at herr hw
        rcases processTokens_supp_origin fs ts' _ herr w hw with h1 | h1
        · rw [lookupS_setOpt_ne acc suppName n v hn] at h1
          exact Or.inl h1
        · obtain ⟨u, hu, huw⟩ := h1
          right
          refine ⟨u, ?_, huw⟩
          rw [List.filterMap_cons, suppOf_pair t n v hnv, if_neg hn]
          exact hu
    · have hskip : ∀ n v, splitEq t ≠ [n, v] := by
        intro n v hc
        exact hp ⟨n, v, hc⟩
      rw [processTokens_cons_skip fs t ts' acc hskip] at herr hw
      rcases processTokens_supp_origin fs ts' acc herr w hw with h1 | h1
      · exact Or.inl h1
      · obtain ⟨u, hu, huw⟩ := h1
        right
        refine ⟨u, ?_, huw⟩
        rw [List.filterMap_cons, suppOf_skip t hskip]
        exact hu

theorem processTokens_contains_mono (fs : Sys) (k : Chars) :
    ∀ (ts : List Chars) (acc : Store), containsKey k acc = true →
    containsKey k (processTokens fs ts acc).1 = true
  | [], acc => by
    intro h
    exact h
  | t :: ts', acc => by
    intro h
    by_cases hp : ∃ n v, splitEq t = [n, v]
    · obtain ⟨n, v, hnv⟩ := hp
      by_cases hn : n = suppName
      · subst hn
        rcases Bool.eq_false_or_eq_true (fs.isfile (fs.abspath v)) with hf | hf
        · rw [processTokens_cons_supp_ok fs t ts' acc v hnv hf]
          exact processTokens_contains_mono fs k ts' _
            (containsKey_setOpt_mono acc k suppName (fs.abspath v) h)
        · rw [processTokens_cons_supp_bad fs t ts' acc v hnv hf]
          exact h
      · rw [processTokens_cons_pair fs t ts' acc n v hnv hn]
        exact processTokens_contains_mono fs k ts' _
          (containsKey_setOpt_mono acc k n v h)
    · have hskip : ∀ n v, splitEq t ≠ [n, v] := by
        intro n v hc
        exact hp ⟨n, v, hc⟩
      rw [processTokens_cons_skip fs t ts' acc hskip]
      exact processTokens_contains_mono fs k ts' acc h

theorem processTokens_supp_present (fs : Sys) :
    ∀ (ts : List Chars) (acc : Store),
    (processTokens fs ts acc).2 = none →
    ts.filterMap suppOf ≠ [] →
    containsKey suppName (processTokens fs ts acc).1 = true
  | [], acc => by
    intro _ hne
    simp at hne
  | t :: ts', acc => by
    intro herr hne
    by_cases hp : ∃ n v, splitEq t = [n, v]
    · obtain ⟨n, v, hnv⟩ := hp
      by_cases hn : n = suppName
      · subst hn
        rcases Bool.eq_false_or_eq_true (fs.isfile (fs.abspath v)) with hf | hf
        · rw [processTokens_cons_supp_ok fs t ts' acc v hnv hf]
          apply processTokens_contains_mono
          rw [containsKey, lookupS_setOpt_self]
          rfl
        · rw [processTokens_cons_supp_bad fs t ts' acc v hnv hf] at herr
          simp at herr
      · rw [processTokens_cons_pair fs t ts' acc n v hnv hn] at herr ⊢
        apply processTokens_supp_present fs ts' _ herr
        rw [List.filterMap_cons, suppOf_pair t n v hnv, if_neg hn] at hne
        exact hne
    · have hskip : ∀ n v, splitEq t ≠ [n, v] := by
        intro n v hc
        exact hp ⟨n, v, hc⟩
      rw [processTokens_cons_skip fs t ts' acc hskip] at herr ⊢
      apply processTokens_supp_present fs ts' acc herr
      rw [List.filterMap_cons, suppOf_skip t hskip] at hne
      exact hne

/-! ### Goodness preservation -/

theorem StoreGood_nil : StoreGood [] := ⟨by simp, by simp, NodupKeys_nil⟩

theorem nextNotPathSep_token (n v : Chars) (hne : n ≠ []) :
    nextNotPathSep (tokenOf (n, v)) = nextNotPathSep n := by
  cases n with
  | nil => exact absurd rfl hne
  | cons c n' => rfl

theorem nextNotPathSep_token_value (n v v' : Chars) :
    nextNotPathSep (tokenOf (n, v)) = nextNotPathSep (tokenOf (n, v')) := by
  cases n <;> rfl

theorem setOpt_StoreGood : ∀ (s : Store) (k v : Chars),
    EntryGood (k, v) →
    (s = [] ∨ nextNotPathSep (tokenOf (k, v)) = true) →
    StoreGood s → StoreGood (setOpt s k v)
  | [], k, v, he, _, _ => by
    refine ⟨?_, by simp [setOpt], ?_⟩
    · intro e hme
      simp only [setOpt, List.mem_singleton] at hme
      rw [hme]
      exact he
    · simp [setOpt, NodupKeys]
  | (k', v') :: rest, k, v, he, hh, hs => by
    have hnext : nextNotPathSep (tokenOf (k, v)) = true := by
      rcases hh with h | h
      · exact absurd h (by simp)
      · exact h
    by_cases hk : k' = k
    · subst hk
      have hset : setOpt ((k', v') :: rest) k' v = (k', v) :: rest := by
        simp [setOpt]
      rw [hset]
      refine ⟨?_, ?_, ?_⟩
      · intro e hme
        rcases List.mem_cons.mp hme with h1 | h1
        · rw [h1]; exact he
        · exact hs.1 e (List.mem_cons_of_mem _ h1)
      · intro e hme
        simp only [List.tail_cons] at hme
        exact hs.2.1 e hme
      · rw [NodupKeys_cons_iff]
        have := hs.2.2
        rw [NodupKeys_cons_iff] at this
        exact this
    · simp only [setOpt, if_neg hk]
      have hrest : StoreGood rest := by
        refine ⟨fun e hme => hs.1 e (List.mem_cons_of_mem _ hme), ?_, ?_⟩
        · intro e hme
          exact hs.2.1 e (List.mem_of_mem_tail hme)
        · exact ((NodupKeys_cons_iff k' v' rest).mp hs.2.2).2
      refine ⟨?_, ?_, ?_⟩
      · intro e hme
        rcases List.mem_cons.mp hme with h1 | h1
        · rw [h1]; exact hs.1 (k', v') (List.mem_cons_self _ _)
        · rcases setOpt_mem rest k v e h1 with h2 | h2
          · exact hs.1 e (List.mem_cons_of_mem _ h2)
          · rw [h2]; exact he
      · intro e hme
        simp only [List.tail_cons] at hme
        rcases setOpt_mem rest k v e hme with h2 | h2
        · exact hs.2.1 e h2
        · rw [h2]; exact hnext
      · rw [NodupKeys_cons_iff]
        have hk' : k' ∉ rest.map Prod.fst := ((NodupKeys_cons_iff k' v' rest).mp hs.2.2).1
        refine ⟨?_, NodupKeys_setOpt rest k v hrest.2.2⟩
        rcases Bool.eq_false_or_eq_true (containsKey k rest) with hc | hc
        · rw [keys_setOpt_contains rest k v hc]
          exact hk'
        · rw [setOpt_of_not_contains rest k v hc]
          rw [List.map_append]
          intro hmem
          rcases List.mem_append.mp hmem with h1 | h1
          · exact hk' h1
          · simp at h1
            exact hk h1

theorem add_StoreGood (s : Store) (k v : Chars) (ow : Bool)
    (he : EntryGood (k, v)) (hnext : nextNotPathSep (tokenOf (k, v)) = true)
    (hs : StoreGood s) : StoreGood (add s k v ow) := by
  rw [add]
  split
  · exact setOpt_StoreGood s k v he (Or.inr hnext) hs
  · exact hs

theorem mem_joinColon_of_mem (ts : List Chars) (t : Chars) (ht : t ∈ ts)
    (c : Char) (hc : c ∈ t) : c ∈ joinColon ts := by
  induction ts with
  | nil => simp at ht
  | cons t0 ts' ih =>
    cases ts' with
    | nil =>
      simp only [List.mem_singleton] at ht
      subst ht
      exact hc
    | cons t1 ts'' =>
      show c ∈ t0 ++ ':' :: joinColon (t1 :: ts'')
      rcases List.mem_cons.mp ht with h1 | h1
      · subst h1
        exact List.mem_append_left _ hc
      · exact List.mem_append_right _ (List.mem_cons_of_mem ':' (ih h1))

theorem mem_joinColon (ts : List Chars) (c : Char) (hc : c ∈ joinColon ts) :
    c = ':' ∨ ∃ t ∈ ts, c ∈ t := by
  induction ts with
  | nil => simp [joinColon] at hc
  | cons t0 ts' ih =>
    cases ts' with
    | nil =>
      right
      exact ⟨t0, List.mem_cons_self _ _, hc⟩
    | cons t1 ts'' =>
      have hc' : c ∈ t0 ++ ':' :: joinColon (t1 :: ts'') := hc
      rcases List.mem_append.mp hc' with h1 | h1
      · exact Or.inr ⟨t0, List.mem_cons_self _ _, h1⟩
      · rcases List.mem_cons.mp h1 with h2 | h2
        · exact Or.inl h2
        · rcases ih h2 with h3 | ⟨t, ht, hct⟩
          · exact Or.inl h3
          · exact Or.inr ⟨t, List.mem_cons_of_mem _ ht, hct⟩

theorem mem_of_mem_splitDelim (s t : Chars) (ht : t ∈ splitDelim s)
    (c : Char) (hc : c ∈ t) : c ∈ s := by
  rw [← joinColon_splitDelim s]
  exact mem_joinColon_of_mem (splitDelim s) t ht c hc

theorem suppName_entry_good (fs : Sys)
    (hfs : ∀ p, ' ' ∉ fs.abspath p ∧ '=' ∉ fs.abspath p ∧
      colonsGuarded (fs.abspath p) = true) (v : Chars) :
    EntryGood (suppName, fs.abspath v) := by
  obtain ⟨h1, h2, h3⟩ := hfs v
  refine ⟨?_, h1, ?_, h2, ?_⟩
  · show ' ' ∉ suppName
    decide
  · show '=' ∉ suppName
    decide
  have heq : tokenOf (suppName, fs.abspath v) =
      (suppName ++ ['=']) ++ fs.abspath v := by
    simp [tokenOf]
  rw [heq]
  apply colonsGuarded_append _ _ _ h3
  decide

theorem processTokens_good (fs : Sys)
    (hfs : ∀ p, ' ' ∉ fs.abspath p ∧ '=' ∉ fs.abspath p ∧
      colonsGuarded (fs.abspath p) = true) :
    ∀ (ts : List Chars) (acc : Store),
    (∀ t ∈ ts, colonsGuarded t = true ∧ ' ' ∉ t) →
    (∀ t ∈ ts.tail, nextNotPathSep t = true) →
    (acc ≠ [] → ∀ t ∈ ts, nextNotPathSep t = true) →
    StoreGood acc →
    StoreGood (processTokens fs ts acc).1
  | [], acc, _, _, _, hacc => hacc
  | t :: ts', acc, hts, htail, hfirst, hacc => by
    have hts' : ∀ u ∈ ts', colonsGuarded u = true ∧ ' ' ∉ u :=
      fun u hu => hts u (List.mem_cons_of_mem _ hu)
    have htail' : ∀ u ∈ ts'.tail, nextNotPathSep u = true :=
      fun u hu => htail u (List.mem_of_mem_tail hu)
    have htailall : ∀ u ∈ ts', nextNotPathSep u = true := fun u hu => htail u hu
    by_cases hp : ∃ n v, splitEq t = [n, v]
    · obtain ⟨n, v, hnv⟩ := hp
      obtain ⟨hteq, hn1, hv1⟩ := splitEq_pair_inv t n v hnv
      have htok : tokenOf (n, v) = t := by rw [tokenOf, ← hteq]
      have hspace : ' ' ∉ t := (hts t (List.mem_cons_self _ _)).2
      have hguard : colonsGuarded t = true := (hts t (List.mem_cons_self _ _)).1
      by_cases hns : n = suppName
      · subst hns
        rcases Bool.eq_false_or_eq_true (fs.isfile (fs.abspath v)) with hf | hf
        · rw [processTokens_cons_supp_ok fs t ts' acc v hnv hf]
          apply processTokens_good fs hfs ts' _ hts' htail'
            (fun _ => htailall)
          apply setOpt_StoreGood _ _ _ (suppName_entry_good fs hfs v) _ hacc
          right
          rfl
        · rw [processTokens_cons_supp_bad fs t ts' acc v hnv hf]
          exact hacc
      · rw [processTokens_cons_pair fs t ts' acc n v hnv hns]
        apply processTokens_good fs hfs ts' _ hts' htail'
          (fun _ => htailall)
        have he : EntryGood (n, v) := by
          refine ⟨?_, ?_, hn1, hv1, ?_⟩
          · intro hm
            apply hspace
            rw [hteq]
            exact List.mem_append_left _ hm
          · intro hm
            apply hspace
            rw [hteq]
            exact List.mem_append_right _ (List.mem_cons_of_mem _ hm)
          · rw [htok]
            exact hguard
        apply setOpt_StoreGood _ _ _ he _ hacc
        rcases List.eq_nil_or_concat acc with hnil | _
        · exact Or.inl hnil
        · rcases (List.eq_nil_or_concat acc) with hnil | ⟨a, b, hab⟩
          · exact Or.inl hnil
          · right
            rw [htok]
            apply hfirst _ t (List.mem_cons_self _ _)
            rw [hab]
            simp
    · have hskip : ∀ n v, splitEq t ≠ [n, v] := by
        intro n v hc
        exact hp ⟨n, v, hc⟩
      rw [processTokens_cons_skip fs t ts' acc hskip]
      exact processTokens_good fs hfs ts' acc hts' htail'
        (fun hne => fun u hu => htailall u hu) hacc

theorem loadRaw_good (fs : Sys)
    (hfs : ∀ p, ' ' ∉ fs.abspath p ∧ '=' ∉ fs.abspath p ∧
      colonsGuarded (fs.abspath p) = true) (raw : Chars) :
    StoreGood (loadRaw fs [] raw).1 := by
  rw [loadRaw]
  split
  · exact StoreGood_nil
  · rename_i hsp
    have hnos : ' ' ∉ raw := by
      rcases Bool.eq_false_or_eq_true (hasSpace raw) with h | h
      · exact absurd h hsp
      · rw [hasSpace] at h
        exact of_decide_eq_false h
    apply processTokens_good fs hfs (splitDelim raw) []
    · intro t ht
      refine ⟨splitDelim_guarded raw t ht, ?_⟩
      intro hm
      exact hnos (mem_of_mem_splitDelim raw t ht ' ' hm)
    · exact splitDelim_tail_heads raw
    · intro hne
      exact absurd rfl hne
    · exact StoreGood_nil

/-! ### Serialization of a good store re-splits into its own tokens -/

theorem tokenOf_ne_nil (e : Chars × Chars) : tokenOf e ≠ [] := by
  obtain ⟨n, v⟩ := e
  cases n <;> simp [tokenOf]

theorem options_splitDelim (s : Store) (hs : StoreGood s) (hne : s ≠ []) :
    splitDelim (options s) = s.map tokenOf := by
  rw [options]
  apply splitDelim_join
  · simp [hne]
  · intro t ht
    obtain ⟨e, he, hte⟩ := List.mem_map.mp ht
    rw [← hte]
    exact (hs.1 e he).2.2.2.2
  · intro t ht
    cases s with
    | nil => exact absurd rfl hne
    | cons e0 s' =>
      simp only [List.map_cons, List.tail_cons] at ht
      obtain ⟨e, he, hte⟩ := List.mem_map.mp ht
      rw [← hte]
      exact ⟨tokenOf_ne_nil e, hs.2.1 e he⟩

theorem hasSpace_options (s : Store) (hs : StoreGood s) :
    hasSpace (options s) = false := by
  rw [hasSpace, decide_eq_false_iff_not]
  intro hmem
  rw [options] at hmem
  rcases mem_joinColon _ ' ' hmem with h1 | ⟨t, ht, hct⟩
  · exact absurd h1 (by decide)
  · obtain ⟨e, he, hte⟩ := List.mem_map.mp ht
    have hEG := hs.1 e he
    rw [← hte, tokenOf] at hct
    rcases List.mem_append.mp hct with h2 | h2
    · exact hEG.1 h2
    · rcases List.mem_cons.mp h2 with h3 | h3
      · exact absurd h3 (by decide)
      · exact hEG.2.1 h3

theorem GoodPair_EntryGood (e : Chars × Chars) (h : GoodPair e) : EntryGood e := by
  obtain ⟨hne, hs1, he1, hc1, hnext, hsupp, hs2, he2, hg2⟩ := h
  refine ⟨hs1, hs2, he1, he2, ?_⟩
  have heq : tokenOf e = (e.1 ++ ['=']) ++ e.2 := by
    simp [tokenOf]
  rw [heq]
  apply colonsGuarded_append _ _ _ hg2
  intro hm
  rcases List.mem_append.mp hm with h1 | h1
  · exact hc1 h1
  · simp at h1

theorem GoodPair_StoreGood (s : Store) (hnd : NodupKeys s)
    (hgood : ∀ e ∈ s, GoodPair e) : StoreGood s := by
  refine ⟨fun e he => GoodPair_EntryGood e (hgood e he), ?_, hnd⟩
  intro e he
  have hg := hgood e (List.mem_of_mem_tail he)
  rw [nextNotPathSep_token e.1 e.2 hg.1]
  exact hg.2.2.2.2.1

theorem roundtrip_store (fs : Sys) (s : Store) (hnd : NodupKeys s)
    (hgood : ∀ e ∈ s, GoodPair e) :
    loadRaw fs [] (options s) = (s, none) := by
  cases s with
  | nil => rfl
  | cons e0 s' =>
    have hs : StoreGood (e0 :: s') := GoodPair_StoreGood _ hnd hgood
    rw [loadRaw, hasSpace_options _ hs]
    simp only [Bool.false_eq_true, if_false]
    rw [options_splitDelim _ hs (by simp)]
    rw [processTokens_clean fs (e0 :: s') [] hnd
      (fun e he => by
        obtain ⟨_, _, he1, _, _, hsupp, _, he2, _⟩ := hgood e he
        exact ⟨he1, he2, hsupp⟩)
      (fun e _ => rfl)]
    simp

theorem reload_lookup (fs : Sys) (s : Store) (key : Chars)
    (hkey : key ≠ suppName) (hs : StoreGood s) (hne : s ≠ [])
    (herr : (loadRaw fs [] (options s)).2 = none) :
    lookupS key (loadRaw fs [] (options s)).1 = lookupS key s := by
  rw [loadRaw, hasSpace_options _ hs] at herr ⊢
  simp only [Bool.false_eq_true, if_false] at herr ⊢
  rw [options_splitDelim _ hs hne] at herr ⊢
  rw [processTokens_lookup fs key hkey s [] hs.2.2
    (fun e he => ⟨(hs.1 e he).2.2.1, (hs.1 e he).2.2.2.1⟩) herr]
  rcases hl : lookupS key s with _ | v <;> simp [lookupS]

theorem buildStore_foldl_nodup :
    ∀ (ops : List (Chars × Chars × Bool)) (acc : Store), NodupKeys acc →
    NodupKeys (ops.foldl (fun st o => add st o.1 o.2.1 o.2.2) acc)
  | [], acc, h => h
  | o :: ops', acc, h => by
    rw [List.foldl_cons]
    exact buildStore_foldl_nodup ops' _ (NodupKeys_add acc o.1 o.2.1 o.2.2 h)

theorem buildStore_foldl_mem (P : Chars × Chars → Prop) :
    ∀ (ops : List (Chars × Chars × Bool)) (acc : Store),
    (∀ e ∈ acc, P e) → (∀ o ∈ ops, P (o.1, o.2.1)) →
    ∀ e ∈ ops.foldl (fun st o => add st o.1 o.2.1 o.2.2) acc, P e
  | [], acc, hacc, _ => hacc
  | o :: ops', acc, hacc, hops => by
    rw [List.foldl_cons]
    apply buildStore_foldl_mem P ops' _ _
      (fun u hu => hops u (List.mem_cons_of_mem _ hu))
    intro e he
    rcases add_mem acc o.1 o.2.1 o.2.2 e he with h1 | h1
    · exact hacc e h1
    · rw [h1]
      exact hops o (List.mem_cons_self _ _)

theorem NodupKeys_buildStore (ops : List (Chars × Chars × Bool)) :
    NodupKeys (buildStore ops) :=
  buildStore_foldl_nodup ops [] NodupKeys_nil

theorem GoodPair_buildStore (ops : List (Chars × Chars × Bool))
    (h : ∀ o ∈ ops, GoodPair (o.1, o.2.1)) :
    ∀ e ∈ buildStore ops, GoodPair e :=
  buildStore_foldl_mem GoodPair ops [] (by simp) h

/-! ## Claim theorems -/

/-- Claim C2 (counterexample): the split rule stated by the spec, with its
"immediately preceded by an escape marker" exception, disagrees with the
tokenizer of the code on the input `a\:b`: the code splits at the colon even
though it is immediately preceded by a backslash. -/
theorem c2_counterexample :
    splitDelim ['a', bslash, ':', 'b'] ≠ claimSplit none ['a', bslash, ':', 'b'] ∧
    splitDelim ['a', bslash, ':', 'b'] = [['a', bslash], ['b']] ∧
    claimSplit none ['a', bslash, ':', 'b'] = [['a', bslash, ':', 'b']] := by
  decide

/-- Claim C2 (amended): `load` splits its input at exactly those colons that
are not immediately followed by a backslash, pipe or forward slash; there is
no escape-marker exception for a preceding character.  Precisely: joining
the produced tokens with colons restores the input (so splits happen only at
colons), every colon kept inside a token is immediately followed by a
path-separator-like character (so every other colon is a boundary), and no
token after the first begins with a path-separator-like character (so a
colon followed by one is never a boundary). -/
theorem c2_amended (s : Chars) :
    joinColon (splitDelim s) = s ∧
    (∀ t ∈ splitDelim s, colonsGuarded t = true) ∧
    (∀ t ∈ (splitDelim s).tail, nextNotPathSep t = true) :=
  ⟨joinColon_splitDelim s, splitDelim_guarded s, splitDelim_tail_heads s⟩

/-- Claim C1 (counterexample): a store populated through `add` with the
non-empty, delimiter-free name `a` and the value `b=c` does not round-trip:
serializing gives `a=b=c`, whose single token is malformed and skipped, so
the reloaded store loses the mapping of `a`. -/
theorem c1_counterexample :
    lookupS "a".data
        (loadRaw sysNone [] (options (add [] "a".data "b=c".data false))).1 ≠
      lookupS "a".data (add [] "a".data "b=c".data false) ∧
    "a".data ≠ [] ∧ ':' ∉ "a".data := by
  decide

/-- Claim C1 (amended): round-trip stability holds for stores populated only
via `add` once the entries are non-degenerate: each name non-empty, free of
spaces, equals signs and colons, not starting with a path-separator-like
character and not the suppressions option; each value free of spaces and
equals signs with every colon immediately followed by a path-separator-like
character.  Then `load`-ing the serialized string into a fresh empty store
rebuilds exactly the original store. -/
theorem c1_amended (fs : Sys) (key : Chars) (ops : List (Chars × Chars × Bool))
    (h : ∀ o ∈ ops, GoodPair (o.1, o.2.1)) :
    load_options fs [] [(key, options (buildStore ops))] key =
      (buildStore ops, none) := by
  have hl : lookupS key [(key, options (buildStore ops))] = some (options (buildStore ops)) := by
    simp [lookupS]
  rw [load_options, hl]
  exact roundtrip_store fs (buildStore ops) (NodupKeys_buildStore ops)
    (GoodPair_buildStore ops h)

/-- Claim C1 (witness): the amended round-trip theorem applied to a concrete
two-entry store, one value containing a guarded colon. -/
theorem c1_witness :
    load_options sysNone []
        [("OPTS".data, options (buildStore
          [("a".data, "1".data, false), ("b".data, "x:/y".data, true)]))]
        "OPTS".data =
      (buildStore [("a".data, "1".data, false), ("b".data, "x:/y".data, true)],
        none) :=
  c1_amended sysNone "OPTS".data
    [("a".data, "1".data, false), ("b".data, "x:/y".data, true)] (by decide)

/-- Claim C7: for every space-free option string, `load` raises the
file-not-found error exactly when some well-formed `suppressions=` token has
a value whose normalized (absolute) path is not an existing file; and when
`load` succeeds, the stored suppressions value is the absolute-path
normalization of one of the declared values, and it is present whenever some
suppressions token was declared. -/
theorem c7_suppressions (fs : Sys) (raw : Chars) (h : hasSpace raw = false) :
    ((∃ p, (loadRaw fs [] raw).2 = some (LoadError.suppMissing p)) ↔
      ∃ v ∈ suppValuesOf raw, fs.isfile (fs.abspath v) = false) ∧
    ((loadRaw fs [] raw).2 = none →
      (∀ w, lookupS suppName (loadRaw fs [] raw).1 = some w →
        ∃ v ∈ suppValuesOf raw, w = fs.abspath v) ∧
      (suppValuesOf raw ≠ [] →
        containsKey suppName (loadRaw fs [] raw).1 = true)) := by
  rw [loadRaw, h]
  simp only [Bool.false_eq_true, if_false]
  refine ⟨processTokens_err fs (splitDelim raw) [], ?_⟩
  intro herr
  constructor
  · intro w hw
    rcases processTokens_supp_origin fs (splitDelim raw) [] herr w hw with h1 | h1
    · simp [lookupS] at h1
    · exact h1
  · intro hne
    exact processTokens_supp_present fs (splitDelim raw) [] herr hne

/-- Claim C7 (witness): with a filesystem on which no file exists, loading
`suppressions=x` raises the file-not-found error, as the characterization
demands. -/
theorem c7_witness :
    (∃ p, (loadRaw sysNone [] "suppressions=x".data).2 =
      some (LoadError.suppMissing p)) ∧
    hasSpace "suppressions=x".data = false :=
  ⟨(c7_suppressions sysNone "suppressions=x".data (by decide)).1.mpr
    ⟨"x".data, by decide, by decide⟩, by decide⟩

/-- Claim C8 (counterexample): a value containing a tab — literal whitespace
— passes the assertion of `load_options` (which tests only for the space
character) and is parsed successfully, so the claim that any literal
whitespace triggers the fatal assertion is false. -/
theorem c8_counterexample :
    tabCh.isWhitespace = true ∧
    load_options sysNone [] [("K".data, ['a', '=', 'b', tabCh])] "K".data =
      ([(['a'], ['b', tabCh])], none) := by
  decide

/-- Claim C8 (amended): for every environment mapping and key present in it,
if the value string contains a literal space character then `load` fails
with the fatal whitespace assertion (leaving the store untouched), not a
recoverable error. -/
theorem c8_amended (fs : Sys) (env : Store) (key raw : Chars) (s : Store)
    (h1 : lookupS key env = some raw) (h2 : ' ' ∈ raw) :
    load_options fs s env key = (s, some LoadError.assertSpace) := by
  have hs : hasSpace raw = true := by
    rw [hasSpace]
    exact decide_eq_true h2
  rw [load_options, h1]
  show loadRaw fs s raw = (s, some LoadError.assertSpace)
  rw [loadRaw, hs]
  simp

/-- Claim C8 (witness): the amended assertion theorem applied at the
concrete value `a b`. -/
theorem c8_witness :
    load_options sysNone [] [("K".data, "a b".data)] "K".data =
      ([], some LoadError.assertSpace) :=
  c8_amended sysNone [("K".data, "a b".data)] "K".data "a b".data []
    (by decide) (by decide)

theorem processTokens_append_stop (fs : Sys) :
    ∀ (pre : List Chars) (acc : Store) (t : Chars) (post : List Chars)
      (v : Chars),
    splitEq t = [suppName, v] → fs.isfile (fs.abspath v) = false →
    (∀ u ∈ pre, ∀ w, splitEq u = [suppName, w] →
      fs.isfile (fs.abspath w) = true) →
    processTokens fs (pre ++ t :: post) acc =
      ((processTokens fs pre acc).1,
        some (LoadError.suppMissing (fs.abspath v)))
  | [], acc, t, post, v => by
    intro ht hbad _
    rw [List.nil_append]
    rw [processTokens_cons_supp_bad fs t post acc v ht hbad]
    rfl
  | u :: pre', acc, t, post, v => by
    intro ht hbad hpre
    rw [List.cons_append]
    by_cases hp : ∃ n w, splitEq u = [n, w]
    · obtain ⟨n, w, hnw⟩ := hp
      by_cases hn : n = suppName
      · subst hn
        have hok : fs.isfile (fs.abspath w) = true :=
          hpre u (List.mem_cons_self _ _) w hnw
        rw [processTokens_cons_supp_ok fs u (pre' ++ t :: post) acc w hnw hok]
        rw [processTokens_cons_supp_ok fs u pre' acc w hnw hok]
        exact processTokens_append_stop fs pre' _ t post v ht hbad
          (fun x hx => hpre x (List.mem_cons_of_mem _ hx))
      · rw [processTokens_cons_pair fs u (pre' ++ t :: post) acc n w hnw hn]
        rw [processTokens_cons_pair fs u pre' acc n w hnw hn]
        exact processTokens_append_stop fs pre' _ t post v ht hbad
          (fun x hx => hpre x (List.mem_cons_of_mem _ hx))
    · have hskip : ∀ n w, splitEq u ≠ [n, w] := fun n w hc => hp ⟨n, w, hc⟩
      rw [processTokens_cons_skip fs u (pre' ++ t :: post) acc hskip]
      rw [processTokens_cons_skip fs u pre' acc hskip]
      exact processTokens_append_stop fs pre' acc t post v ht hbad
        (fun x hx => hpre x (List.mem_cons_of_mem _ hx))

theorem processTokens_contains_of_valid (fs : Sys) :
    ∀ (ts : List Chars) (acc : Store),
    (∀ u ∈ ts, ∀ w, splitEq u = [suppName, w] →
      fs.isfile (fs.abspath w) = true) →
    ∀ u n w, u ∈ ts → splitEq u = [n, w] → n ≠ suppName →
    containsKey n (processTokens fs ts acc).1 = true
  | [], acc => by
    intro _ u n w hu
    simp at hu
  | t :: ts', acc => by
    intro hsupp u n w hu hnw hn
    by_cases hp : ∃ n0 w0, splitEq t = [n0, w0]
    · obtain ⟨n0, w0, h0⟩ := hp
      by_cases hns : n0 = suppName
      · subst hns
        have hok : fs.isfile (fs.abspath w0) = true :=
          hsupp t (List.mem_cons_self _ _) w0 h0
        rw [processTokens_cons_supp_ok fs t ts' acc w0 h0 hok]
        rcases List.mem_cons.mp hu with h1 | h1
        · rw [h1, h0] at hnw
          injection hnw with hx _
          exact absurd hx.symm hn
        · exact processTokens_contains_of_valid fs ts' _
            (fun x hx => hsupp x (List.mem_cons_of_mem _ hx)) u n w h1 hnw hn
      · rw [processTokens_cons_pair fs t ts' acc n0 w0 h0 hns]
        rcases List.mem_cons.mp hu with h1 | h1
        · rw [h1, h0] at hnw
          injection hnw with hx _
          rw [← hx]
          apply processTokens_contains_mono
          rw [containsKey, lookupS_setOpt_self]
          rfl
        · exact processTokens_contains_of_valid fs ts' _
            (fun x hx => hsupp x (List.mem_cons_of_mem _ hx)) u n w h1 hnw hn
    · have hskip : ∀ a b, splitEq t ≠ [a, b] := fun a b hc => hp ⟨a, b, hc⟩
      rw [processTokens_cons_skip fs t ts' acc hskip]
      rcases List.mem_cons.mp hu with h1 | h1
      · rw [h1] at hnw
        exact absurd hnw (hskip n w)
      · exact processTokens_contains_of_valid fs ts' acc
          (fun x hx => hsupp x (List.mem_cons_of_mem _ hx)) u n w h1 hnw hn

/-- Claim C10: `load` is not atomic on a suppressions failure.  For every
space-free option string whose token list decomposes as arbitrary preceding
tokens, then a well-formed suppressions token whose file does not exist
(the first failing one: suppressions tokens among the preceding ones all
name existing files), then arbitrary trailing tokens: `load` raises the
file-not-found error, the store is left exactly as the preceding tokens
populated it (not rolled back), and in particular every option parsed from
a valid non-suppressions token among the preceding tokens remains stored. -/
theorem c10_partial (fs : Sys) (raw : Chars) (pre : List Chars) (t : Chars)
    (post : List Chars) (v : Chars)
    (hsp : hasSpace raw = false)
    (hsplit : splitDelim raw = pre ++ t :: post)
    (ht : splitEq t = [suppName, v])
    (hbad : fs.isfile (fs.abspath v) = false)
    (hpre : ∀ u ∈ pre, ∀ w, splitEq u = [suppName, w] →
      fs.isfile (fs.abspath w) = true) :
    loadRaw fs [] raw =
      ((processTokens fs pre []).1,
        some (LoadError.suppMissing (fs.abspath v))) ∧
    (∀ u n w, u ∈ pre → splitEq u = [n, w] → n ≠ suppName →
      containsKey n (loadRaw fs [] raw).1 = true) := by
  have hload : loadRaw fs [] raw =
      ((processTokens fs pre []).1,
        some (LoadError.suppMissing (fs.abspath v))) := by
    rw [loadRaw, hsp]
    simp only [Bool.false_eq_true, if_false]
    rw [hsplit]
    exact processTokens_append_stop fs pre [] t post v ht hbad hpre
  refine ⟨hload, ?_⟩
  intro u n w hu hnw hn
  rw [hload]
  exact processTokens_contains_of_valid fs pre [] hpre u n w hu hnw hn

/-- Claim C10 (witness): the non-atomicity theorem at a concrete
multi-token string on a filesystem with no files: in
`a=1:b=x:/y:suppressions=x:c=3` the suppressions token fails, the two
preceding options (one with a guarded colon in its value) stay stored, the
trailing token is never reached, and the declared `a` option is present in
the raised-on store. -/
theorem c10_witness :
    loadRaw sysNone [] "a=1:b=x:/y:suppressions=x:c=3".data =
      ([("a".data, "1".data), ("b".data, "x:/y".data)],
        some (LoadError.suppMissing "x".data)) ∧
    containsKey "a".data
      (loadRaw sysNone [] "a=1:b=x:/y:suppressions=x:c=3".data).1 = true := by
  have h := c10_partial sysNone "a=1:b=x:/y:suppressions=x:c=3".data
    ["a=1".data, "b=x:/y".data] "suppressions=x".data ["c=3".data] "x".data
    (by decide) (by decide) (by decide) rfl
    (by
      intro u hu w hw
      rcases List.mem_cons.mp hu with h1 | h1
      · rw [h1] at hw
        rw [show splitEq "a=1".data = ["a".data, "1".data] from by decide]
          at hw
        injection hw with hx _
        exact absurd hx.symm (by decide)
      · rcases List.mem_cons.mp h1 with h2 | h2
        · rw [h2] at hw
          rw [show splitEq "b=x:/y".data = ["b".data, "x:/y".data] from
            by decide] at hw
          injection hw with hx _
          exact absurd hx.symm (by decide)
        · simp at h2)
  constructor
  · rw [h.1]
    rfl
  · exact h.2 "a=1".data "a".data "1".data (by decide) (by decide) (by decide)

/-! ### `wait_on_files` lemmas -/

theorem wait_on_files_ok (sys : Sys) (accessible : Bool) (files : List Chars)
    (poll_rate timeout t0 : ℚ) (ticks : List Tick)
    (h1 : ¬poll_rate < 0) (h2 : ¬timeout < 0) (h3 : ¬timeout < poll_rate) :
    wait_on_files sys accessible files poll_rate timeout t0 ticks =
      (if accessible = false then Except.ok (some (true, 0))
       else if normWait sys files = [] then Except.ok (some (true, 0))
       else Except.ok
        (waitLoop sys (normWait sys files) (t0 + timeout) ticks)) := by
  rw [wait_on_files, if_neg h1, if_neg h2, if_neg h3]

theorem anyOpenHit_nil (sys : Sys) (t : Tick) : anyOpenHit sys [] t = false := by
  simp [anyOpenHit]

theorem timesOut_nil_wf (sys : Sys) (wait_end : ℚ) :
    ∀ ticks : List Tick, timesOut sys [] wait_end ticks = false
  | [] => rfl
  | t :: rest => by
    simp [timesOut, anyOpenHit_nil]

theorem waitLoop_false_iff (sys : Sys) (wf : List Chars) (wait_end : ℚ) :
    ∀ (ticks : List Tick) (b : Bool) (n : Nat),
    waitLoop sys wf wait_end ticks = some (b, n) →
    (b = false ↔ timesOut sys wf wait_end ticks = true)
  | [], b, n => by
    intro h
    simp [waitLoop] at h
  | t :: rest, b, n => by
    intro h
    by_cases hr : t.raised = true
    · rw [waitLoop, if_pos hr] at h
      injection h with h'
      injection h' with hb hn
      simp [← hb, timesOut, hr]
    · have hr' : t.raised = false := by
        rcases Bool.eq_false_or_eq_true t.raised with h0 | h0
        · exact absurd h0 hr
        · exact h0
      by_cases hrun : t.running = false
      · rw [waitLoop, if_neg hr, if_pos hrun] at h
        injection h with h'
        injection h' with hb hn
        simp [← hb, timesOut, hrun]
      · have hrun' : t.running = true := by
          rcases Bool.eq_false_or_eq_true t.running with h0 | h0
          · exact h0
          · exact absurd h0 hrun
        by_cases hhit : anyOpenHit sys wf t = false
        · rw [waitLoop, if_neg hr, if_neg hrun, if_pos hhit] at h
          injection h with h'
          injection h' with hb hn
          simp [← hb, timesOut, hhit]
        · have hhit' : anyOpenHit sys wf t = true := by
            rcases Bool.eq_false_or_eq_true (anyOpenHit sys wf t) with h0 | h0
            · exact h0
            · exact absurd h0 hhit
          by_cases hd : wait_end ≤ t.now
          · rw [waitLoop, if_neg hr, if_neg hrun, if_neg hhit, if_pos hd] at h
            injection h with h'
            injection h' with hb hn
            simp [← hb, timesOut, hr', hrun', hhit', hd]
          · rw [waitLoop, if_neg hr, if_neg hrun, if_neg hhit, if_neg hd] at h
            rcases hrec : waitLoop sys wf wait_end rest with _ | ⟨b', n'⟩
            · rw [hrec] at h
              simp at h
            · rw [hrec] at h
              injection h with h'
              injection h' with hb hn
              have ih := waitLoop_false_iff sys wf wait_end rest b' n' hrec
              rw [← hb]
              rw [timesOut]
              simp only [hr', hrun', hhit', Bool.not_false, Bool.true_and]
              rw [decide_eq_false hd]
              simp only [Bool.false_or]
              exact ih

/-- Claim C4: characterization of the wait result over an observation trace.
For a decided call (`some` result) on an accessible process, the result is
`false` exactly when the trace times out: the deadline is reached on an
iteration still seeing a watched file open, all earlier iterations polling
normally with a watched file open; in every other case the result is `true`.
Moreover, when the first poll sees the process running and holding none of
the watched files, the result is `true` with zero sleeps executed. -/
theorem c4_wait_result (sys : Sys) (files : List Chars)
    (poll_rate timeout t0 : ℚ) (ticks : List Tick) (b : Bool) (n : Nat)
    (h : wait_on_files sys true files poll_rate timeout t0 ticks =
      Except.ok (some (b, n))) :
    (b = false ↔
      timesOut sys (normWait sys files) (t0 + timeout) ticks = true) ∧
    (∀ t rest, ticks = t :: rest → t.raised = false → t.running = true →
      anyOpenHit sys (normWait sys files) t = false → b = true ∧ n = 0) := by
  by_cases h1 : poll_rate < 0
  · rw [wait_on_files, if_pos h1] at h
    exact Except.noConfusion h
  by_cases h2 : timeout < 0
  · rw [wait_on_files, if_neg h1, if_pos h2] at h
    exact Except.noConfusion h
  by_cases h3 : timeout < poll_rate
  · rw [wait_on_files, if_neg h1, if_neg h2, if_pos h3] at h
    exact Except.noConfusion h
  rw [wait_on_files_ok sys true files poll_rate timeout t0 ticks h1 h2 h3] at h
  rw [if_neg (by decide : ¬(true = false))] at h
  by_cases hwf : normWait sys files = []
  · rw [if_pos hwf] at h
    injection h with h'
    injection h' with h''
    injection h'' with hb hn
    constructor
    · rw [← hb, hwf, timesOut_nil_wf]
      simp
    · intro t rest _ _ _ _
      exact ⟨hb.symm, hn.symm⟩
  · rw [if_neg hwf] at h
    injection h with h'
    constructor
    · exact waitLoop_false_iff sys (normWait sys files) (t0 + timeout)
        ticks b n h'
    · intro t rest heq hraised hrunning hhit
      rw [heq] at h'
      rw [waitLoop, if_neg (by rw [hraised]; decide),
        if_neg (by rw [hrunning]; decide), if_pos hhit] at h'
      injection h' with h''
      injection h'' with hb hn
      exact ⟨hb.symm, hn.symm⟩

/-- Claim C4 (witness): a one-tick trace in which the running process holds
no watched file: the wait decides `true` with zero sleeps and the trace does
not time out. -/
theorem c4_witness :
    ((true : Bool) = false ↔
      timesOut sysConst (normWait sysConst ["f".data]) ((0 : ℚ) + 1)
        [⟨false, true, [], 0⟩] = true) ∧
    (∀ t rest, ([⟨false, true, [], 0⟩] : List Tick) = t :: rest →
      t.raised = false → t.running = true →
      anyOpenHit sysConst (normWait sysConst ["f".data]) t = false →
      (true : Bool) = true ∧ (0 : Nat) = 0) :=
  c4_wait_result sysConst ["f".data] 0 1 0 [⟨false, true, [], 0⟩] true 0 rfl

/-- Claim C5: when the normalized watch set is empty, or the target process
is gone or inaccessible (`psutil.Process` raises), `wait_on_files` returns
`True` immediately — zero sleeps — for every trace of process states. -/
theorem c5_immediate (sys : Sys) (accessible : Bool) (files : List Chars)
    (poll_rate timeout t0 : ℚ) (ticks : List Tick)
    (h1 : 0 ≤ poll_rate) (h2 : 0 ≤ timeout) (h3 : poll_rate ≤ timeout)
    (h4 : normWait sys files = [] ∨ accessible = false) :
    wait_on_files sys accessible files poll_rate timeout t0 ticks =
      Except.ok (some (true, 0)) := by
  rw [wait_on_files_ok sys accessible files poll_rate timeout t0 ticks
    (not_lt.mpr h1) (not_lt.mpr h2) (not_lt.mpr h3)]
  rcases h4 with h4 | h4
  · by_cases ha : accessible = false
    · rw [if_pos ha]
    · rw [if_neg ha, if_pos h4]
  · rw [if_pos h4]

/-- Claim C5 (witness): an existing-nowhere watch list normalizes to the
empty set and the wait returns success at once, for a non-empty trace. -/
theorem c5_witness :
    wait_on_files sysNone true ["f".data] 0 1 0 [⟨false, true, [], 0⟩] =
      Except.ok (some (true, 0)) :=
  c5_immediate sysNone true ["f".data] 0 1 0 [⟨false, true, [], 0⟩]
    (by norm_num) (by norm_num) (by norm_num) (Or.inl (by decide))

/-- Claim C6: a negative poll rate, a negative timeout, or a poll rate
exceeding the timeout makes `wait_on_files` fail one of its leading
assertions, for every filesystem, process state and trace — before any
polling or path normalization can happen. -/
theorem c6_asserts (sys : Sys) (accessible : Bool) (files : List Chars)
    (poll_rate timeout t0 : ℚ) (ticks : List Tick)
    (h : poll_rate < 0 ∨ timeout < 0 ∨ timeout < poll_rate) :
    ∃ e, wait_on_files sys accessible files poll_rate timeout t0 ticks =
      Except.error e := by
  by_cases h1 : poll_rate < 0
  · exact ⟨WaitAssert.pollRateNeg, by rw [wait_on_files, if_pos h1]⟩
  by_cases h2 : timeout < 0
  · exact ⟨WaitAssert.timeoutNeg, by rw [wait_on_files, if_neg h1, if_pos h2]⟩
  by_cases h3 : timeout < poll_rate
  · exact ⟨WaitAssert.pollRateGtTimeout,
      by rw [wait_on_files, if_neg h1, if_neg h2, if_pos h3]⟩
  rcases h with hh | hh | hh
  · exact absurd hh h1
  · exact absurd hh h2
  · exact absurd hh h3

/-- Claim C6 (witness): the call with `poll_rate = 1` and `timeout = 0.5`
fails precondition validation. -/
theorem c6_witness :
    ∃ e, wait_on_files sysNone true [] 1 (1 / 2) 0 [] = Except.error e :=
  c6_asserts sysNone true [] 1 (1 / 2) 0 []
    (Or.inr (Or.inr (by norm_num)))

/-! ### Environment-preparation lemmas -/

theorem lookupS_applyTable_notin :
    ∀ (tbl : List (Chars × Chars)) (env : Store) (k : Chars),
    k ∉ tbl.map Prod.fst →
    lookupS k (applyTable env tbl) = lookupS k env
  | [], env, k, _ => rfl
  | (k0, v0) :: tbl', env, k, h => by
    have hk0 : k0 ≠ k := by
      intro hc
      exact h (by rw [List.map_cons, hc]; exact List.mem_cons_self _ _)
    have h' : k ∉ tbl'.map Prod.fst := by
      intro hc
      exact h (by rw [List.map_cons]; exact List.mem_cons_of_mem _ hc)
    show lookupS k (applyTable (setOpt env k0 v0) tbl') = lookupS k env
    rw [lookupS_applyTable_notin tbl' (setOpt env k0 v0) k h']
    exact lookupS_setOpt_ne env k k0 v0 hk0

theorem lookupS_applyTable_mem :
    ∀ (tbl : List (Chars × Chars)) (env : Store) (k v : Chars),
    (tbl.map Prod.fst).Nodup → (k, v) ∈ tbl →
    lookupS k (applyTable env tbl) = some v
  | [], env, k, v, _, hm => by simp at hm
  | (k0, v0) :: tbl', env, k, v, hnd, hm => by
    rw [List.map_cons, List.nodup_cons] at hnd
    rcases List.mem_cons.mp hm with h1 | h1
    · injection h1 with hk hv
      subst hk; subst hv
      show lookupS k (applyTable (setOpt env k v) tbl') = some v
      rw [lookupS_applyTable_notin tbl' (setOpt env k v) k hnd.1]
      exact lookupS_setOpt_self env k v
    · show lookupS k (applyTable (setOpt env k0 v0) tbl') = some v
      exact lookupS_applyTable_mem tbl' (setOpt env k0 v0) k v hnd.2 h1

theorem lookupS_eq_none_of_not_contains (k : Chars) (s : Store)
    (h : containsKey k s = false) : lookupS k s = none := by
  rw [containsKey] at h
  rcases hl : lookupS k s with _ | v
  · rfl
  · rw [hl] at h
    simp at h

theorem toggledEnv_eq (osenv : Store) :
    toggledEnv osenv =
      (if containsKey rustKey osenv = true then
        (if containsKey skiaKey osenv = true then applyTable osenv toggleTable
         else setOpt (applyTable osenv toggleTable) skiaKey "1".data)
       else setOpt
        (if containsKey skiaKey osenv = true then applyTable osenv toggleTable
         else setOpt (applyTable osenv toggleTable) skiaKey "1".data)
        rustKey "full".data) := by
  have h1 : containsKey skiaKey (applyTable osenv toggleTable) =
      containsKey skiaKey osenv := by
    rw [containsKey, containsKey,
      lookupS_applyTable_notin toggleTable osenv skiaKey (by decide)]
  have h2 : containsKey rustKey
      (if containsKey skiaKey osenv = true then applyTable osenv toggleTable
       else setOpt (applyTable osenv toggleTable) skiaKey "1".data) =
      containsKey rustKey osenv := by
    by_cases hs : containsKey skiaKey osenv = true
    · rw [if_pos hs, containsKey, containsKey,
        lookupS_applyTable_notin toggleTable osenv rustKey (by decide)]
    · rw [if_neg hs, containsKey, containsKey,
        lookupS_setOpt_ne _ rustKey skiaKey _ (by decide),
        lookupS_applyTable_notin toggleTable osenv rustKey (by decide)]
  rw [toggledEnv, h1, h2]

theorem lookupS_toggledEnv_other (osenv : Store) (k : Chars)
    (hsk : k ≠ skiaKey) (hrk : k ≠ rustKey) :
    lookupS k (toggledEnv osenv) = lookupS k (applyTable osenv toggleTable) := by
  rw [toggledEnv_eq]
  by_cases hr : containsKey rustKey osenv = true
  · rw [if_pos hr]
    by_cases hs : containsKey skiaKey osenv = true
    · rw [if_pos hs]
    · rw [if_neg hs, lookupS_setOpt_ne _ k skiaKey _ (Ne.symm hsk)]
  · rw [if_neg hr, lookupS_setOpt_ne _ k rustKey _ (Ne.symm hrk)]
    by_cases hs : containsKey skiaKey osenv = true
    · rw [if_pos hs]
    · rw [if_neg hs, lookupS_setOpt_ne _ k skiaKey _ (Ne.symm hsk)]

theorem skia_toggledEnv_absent (osenv : Store)
    (h : lookupS skiaKey osenv = none) :
    lookupS skiaKey (toggledEnv osenv) = some "1".data := by
  have hs : ¬containsKey skiaKey osenv = true := by
    rw [containsKey, h]
    decide
  rw [toggledEnv_eq]
  by_cases hr : containsKey rustKey osenv = true
  · rw [if_pos hr, if_neg hs]
    exact lookupS_setOpt_self _ _ _
  · rw [if_neg hr, lookupS_setOpt_ne _ skiaKey rustKey _ (by decide), if_neg hs]
    exact lookupS_setOpt_self _ _ _

theorem skia_toggledEnv_present (osenv : Store) (v : Chars)
    (h : lookupS skiaKey osenv = some v) :
    lookupS skiaKey (toggledEnv osenv) = some v := by
  have hs : containsKey skiaKey osenv = true := by
    rw [containsKey, h]
    rfl
  have he1 : lookupS skiaKey (applyTable osenv toggleTable) = some v := by
    rw [lookupS_applyTable_notin toggleTable osenv skiaKey (by decide)]
    exact h
  rw [toggledEnv_eq]
  by_cases hr : containsKey rustKey osenv = true
  · rw [if_pos hr, if_pos hs]
    exact he1
  · rw [if_neg hr, lookupS_setOpt_ne _ skiaKey rustKey _ (by decide), if_pos hs]
    exact he1

theorem rust_toggledEnv_absent (osenv : Store)
    (h : lookupS rustKey osenv = none) :
    lookupS rustKey (toggledEnv osenv) = some "full".data := by
  have hr : ¬containsKey rustKey osenv = true := by
    rw [containsKey, h]
    decide
  rw [toggledEnv_eq, if_neg hr]
  exact lookupS_setOpt_self _ _ _

theorem rust_toggledEnv_present (osenv : Store) (v : Chars)
    (h : lookupS rustKey osenv = some v) :
    lookupS rustKey (toggledEnv osenv) = some v := by
  have hr : containsKey rustKey osenv = true := by
    rw [containsKey, h]
    rfl
  rw [toggledEnv_eq, if_pos hr]
  by_cases hs : containsKey skiaKey osenv = true
  · rw [if_pos hs, lookupS_applyTable_notin toggleTable osenv rustKey (by decide)]
    exact h
  · rw [if_neg hs, lookupS_setOpt_ne _ rustKey skiaKey _ (by decide),
      lookupS_applyTable_notin toggleTable osenv rustKey (by decide)]
    exact h

theorem lookupS_symbolizerStep (fs : Sys) (env : Store) (target k : Chars)
    (hk : k ≠ symKey) :
    lookupS k (symbolizerStep fs env target) = lookupS k env := by
  rw [symbolizerStep]
  by_cases h1 : containsKey symKey env = false
  · rw [if_pos h1]
    by_cases h2 : fs.windows = false
    · rw [if_pos h2]
      by_cases h3 :
          fs.isfile (fs.joinPath target "llvm-symbolizer".data) = true
      · rw [if_pos h3]
        exact lookupS_setOpt_ne env k symKey _ (Ne.symm hk)
      · rw [if_neg h3]
    · rw [if_neg h2]
  · rw [if_neg h1]

theorem configure_ok_parts (fs : Sys) (env : Store) (target slog : Chars)
    (env2 : Store)
    (h : configure_sanitizers fs env target slog = Except.ok env2) :
    (load_options fs [] env asanKey).2 = none ∧
    (load_options fs [] (env1C fs env slog) lsanKey).2 = none ∧
    (load_options fs [] (env2C fs env slog) ubsanKey).2 = none ∧
    env2 = symbolizerStep fs (env3C fs env slog) target := by
  rcases h1 : (load_options fs [] env asanKey).2 with _ | e1
  · rcases h2 : (load_options fs [] (env1C fs env slog) lsanKey).2 with _ | e2
    · rcases h3 : (load_options fs [] (env2C fs env slog) ubsanKey).2 with _ | e3
      · refine ⟨rfl, rfl, rfl, ?_⟩
        rw [configure_sanitizers, h1, h2, h3] at h
        injection h with h'
        exact h'.symm
      · rw [configure_sanitizers, h1, h2, h3] at h
        exact Except.noConfusion h
    · rw [configure_sanitizers, h1, h2] at h
      exact Except.noConfusion h
  · rw [configure_sanitizers, h1] at h
    exact Except.noConfusion h

theorem configure_preserve (fs : Sys) (env : Store) (target slog : Chars)
    (env2 : Store) (k : Chars)
    (hk1 : k ≠ asanKey) (hk2 : k ≠ lsanKey) (hk3 : k ≠ ubsanKey)
    (hk4 : k ≠ symKey)
    (h : configure_sanitizers fs env target slog = Except.ok env2) :
    lookupS k env2 = lookupS k env := by
  obtain ⟨_, _, _, h4⟩ := configure_ok_parts fs env target slog env2 h
  rw [h4, lookupS_symbolizerStep fs _ target k hk4]
  rw [env3C, lookupS_setOpt_ne _ k ubsanKey _ (Ne.symm hk3)]
  rw [env2C, lookupS_setOpt_ne _ k lsanKey _ (Ne.symm hk2)]
  rw [env1C, lookupS_setOpt_ne _ k asanKey _ (Ne.symm hk1)]

theorem prepare_none_ok (fs : Sys) (osenv : Store) (target slog : Chars)
    (env' : Store)
    (h : prepare_environment fs osenv target slog none = Except.ok env') :
    configure_sanitizers fs (toggledEnv osenv) target slog =
      Except.ok env' := by
  rw [prepare_environment] at h
  rcases hc : configure_sanitizers fs (toggledEnv osenv) target slog
    with e | env2
  · rw [hc] at h
    exact Except.noConfusion h
  · rw [hc] at h
    injection h with h'
    rw [← h']

/-- Claim C9: `prepare_environment` writes each variable of its fixed
sandbox/crash-reporter/debug table to its specific constant unconditionally
(overwriting any value in the base environment), except exactly the
diagnostic-assertion toggle `MOZ_SKIA_DISABLE_ASSERTS` and the
backtrace-verbosity toggle `RUST_BACKTRACE`, which keep any value already
present in the base environment and receive their defaults (`1`, `full`)
only when absent. -/
theorem c9_fixed_toggles (fs : Sys) (osenv : Store) (target slog : Chars)
    (env' : Store)
    (h : prepare_environment fs osenv target slog none = Except.ok env') :
    lookupS "G_SLICE".data env' = some "always-malloc".data ∧
    lookupS "MOZ_CC_RUN_DURING_SHUTDOWN".data env' = some "1".data ∧
    lookupS "MOZ_CRASHREPORTER".data env' = some "1".data ∧
    lookupS "MOZ_CRASHREPORTER_NO_REPORT".data env' = some "1".data ∧
    lookupS "MOZ_DISABLE_CONTENT_SANDBOX".data env' = some "1".data ∧
    lookupS "MOZ_DISABLE_GMP_SANDBOX".data env' = some "1".data ∧
    lookupS "MOZ_DISABLE_GPU_SANDBOX".data env' = some "1".data ∧
    lookupS "MOZ_DISABLE_NPAPI_SANDBOX".data env' = some "1".data ∧
    lookupS "MOZ_GDB_SLEEP".data env' = some "0".data ∧
    lookupS "XRE_NO_WINDOWS_CRASH_DIALOG".data env' = some "1".data ∧
    lookupS "XPCOM_DEBUG_BREAK".data env' = some "warn".data ∧
    (lookupS skiaKey osenv = none → lookupS skiaKey env' = some "1".data) ∧
    (∀ v, lookupS skiaKey osenv = some v → lookupS skiaKey env' = some v) ∧
    (lookupS rustKey osenv = none →
      lookupS rustKey env' = some "full".data) ∧
    (∀ v, lookupS rustKey osenv = some v → lookupS rustKey env' = some v) := by
  have hc := prepare_none_ok fs osenv target slog env' h
  have hpres : ∀ k : Chars, k ≠ asanKey → k ≠ lsanKey → k ≠ ubsanKey →
      k ≠ symKey → lookupS k env' = lookupS k (toggledEnv osenv) :=
    fun k h1 h2 h3 h4 =>
      configure_preserve fs (toggledEnv osenv) target slog env' k h1 h2 h3 h4 hc
  have htab : ∀ k v : Chars, (k, v) ∈ toggleTable → k ≠ asanKey →
      k ≠ lsanKey → k ≠ ubsanKey → k ≠ symKey → k ≠ skiaKey → k ≠ rustKey →
      lookupS k env' = some v := by
    intro k v hm h1 h2 h3 h4 h5 h6
    rw [hpres k h1 h2 h3 h4, lookupS_toggledEnv_other osenv k h5 h6]
    exact lookupS_applyTable_mem toggleTable osenv k v (by decide) hm
  have hskia : lookupS skiaKey env' = lookupS skiaKey (toggledEnv osenv) :=
    hpres skiaKey (by decide) (by decide) (by decide) (by decide)
  have hrust : lookupS rustKey env' = lookupS rustKey (toggledEnv osenv) :=
    hpres rustKey (by decide) (by decide) (by decide) (by decide)
  refine ⟨?_, ?_, ?_, ?_, ?_, ?_, ?_, ?_, ?_, ?_, ?_, ?_, ?_, ?_, ?_⟩
  · exact htab _ _ (by decide) (by decide) (by decide) (by decide) (by decide)
      (by decide) (by decide)
  · exact htab _ _ (by decide) (by decide) (by decide) (by decide) (by decide)
      (by decide) (by decide)
  · exact htab _ _ (by decide) (by decide) (by decide) (by decide) (by decide)
      (by decide) (by decide)
  · exact htab _ _ (by decide) (by decide) (by decide) (by decide) (by decide)
      (by decide) (by decide)
  · exact htab _ _ (by decide) (by decide) (by decide) (by decide) (by decide)
      (by decide) (by decide)
  · exact htab _ _ (by decide) (by decide) (by decide) (by decide) (by decide)
      (by decide) (by decide)
  · exact htab _ _ (by decide) (by decide) (by decide) (by decide) (by decide)
      (by decide) (by decide)
  · exact htab _ _ (by decide) (by decide) (by decide) (by decide) (by decide)
      (by decide) (by decide)
  · exact htab _ _ (by decide) (by decide) (by decide) (by decide) (by decide)
      (by decide) (by decide)
  · exact htab _ _ (by decide) (by decide) (by decide) (by decide) (by decide)
      (by decide) (by decide)
  · exact htab _ _ (by decide) (by decide) (by decide) (by decide) (by decide)
      (by decide) (by decide)
  · intro habs
    rw [hskia]
    exact skia_toggledEnv_absent osenv habs
  · intro v hv
    rw [hskia]
    exact skia_toggledEnv_present osenv v hv
  · intro habs
    rw [hrust]
    exact rust_toggledEnv_absent osenv habs
  · intro v hv
    rw [hrust]
    exact rust_toggledEnv_present osenv v hv

theorem load_options_good (fs : Sys)
    (hfs : ∀ p, ' ' ∉ fs.abspath p ∧ '=' ∉ fs.abspath p ∧
      colonsGuarded (fs.abspath p) = true) (env : Store) (key : Chars) :
    StoreGood (load_options fs [] env key).1 := by
  rw [load_options]
  rcases hl : lookupS key env with _ | raw
  · exact StoreGood_nil
  · exact loadRaw_good fs hfs raw

theorem lp_entry_good (slog : Chars)
    (hslog : ' ' ∉ slog ∧ '=' ∉ slog ∧ colonsGuarded (quoteVal slog) = true) :
    EntryGood (lpName, quoteVal slog) := by
  obtain ⟨h1, h2, h3⟩ := hslog
  refine ⟨?_, ?_, ?_, ?_, ?_⟩
  · show ' ' ∉ lpName
    decide
  · show ' ' ∉ quoteVal slog
    intro hm
    rcases List.mem_cons.mp hm with hx | hx
    · exact absurd hx (by decide)
    · rcases List.mem_append.mp hx with hy | hy
      · exact h1 hy
      · simp at hy
        exact absurd hy (by decide)
  · show '=' ∉ lpName
    decide
  · show '=' ∉ quoteVal slog
    intro hm
    rcases List.mem_cons.mp hm with hx | hx
    · exact absurd hx (by decide)
    · rcases List.mem_append.mp hx with hy | hy
      · exact h2 hy
      · simp at hy
        exact absurd hy (by decide)
  · show colonsGuarded (tokenOf (lpName, quoteVal slog)) = true
    rw [show tokenOf (lpName, quoteVal slog) =
      (lpName ++ ['=']) ++ quoteVal slog from rfl]
    exact colonsGuarded_append _ _ (by decide) h3

theorem asanStore_good (fs : Sys) (env : Store) (slog : Chars)
    (hfs : ∀ p, ' ' ∉ fs.abspath p ∧ '=' ∉ fs.abspath p ∧
      colonsGuarded (fs.abspath p) = true)
    (hslog : ' ' ∉ slog ∧ '=' ∉ slog ∧ colonsGuarded (quoteVal slog) = true) :
    StoreGood (asanStore fs env slog) := by
  simp only [asanStore]
  refine add_StoreGood _ _ _ _ (by decide) (by decide) ?_
  refine add_StoreGood _ _ _ _ (by decide) (by decide) ?_
  refine add_StoreGood _ _ _ _ (by decide) (by decide) ?_
  refine add_StoreGood _ _ _ _ (lp_entry_good slog hslog) (by rfl) ?_
  refine add_StoreGood _ _ _ _ (by decide) (by decide) ?_
  refine add_StoreGood _ _ _ _ (by decide) (by decide) ?_
  refine add_StoreGood _ _ _ _ (by decide) (by decide) ?_
  refine add_StoreGood _ _ _ _ (by decide) (by decide) ?_
  refine add_StoreGood _ _ _ _ (by decide) (by decide) ?_
  exact load_options_good fs hfs env asanKey

theorem asanStore_lp (fs : Sys) (env : Store) (slog : Chars) :
    lookupS lpName (asanStore fs env slog) = some (quoteVal slog) := by
  simp only [asanStore]
  rw [lookupS_add_ne _ lpName "symbolize".data "true".data false (by decide)]
  rw [lookupS_add_ne _ lpName "strict_init_order".data "true".data false
    (by decide)]
  rw [lookupS_add_ne _ lpName "sleep_before_dying".data "0".data false
    (by decide)]
  exact lookupS_add_overwrite _ lpName (quoteVal slog)

theorem ubsanStore_good (fs : Sys) (env : Store) (slog : Chars)
    (hfs : ∀ p, ' ' ∉ fs.abspath p ∧ '=' ∉ fs.abspath p ∧
      colonsGuarded (fs.abspath p) = true)
    (hslog : ' ' ∉ slog ∧ '=' ∉ slog ∧ colonsGuarded (quoteVal slog) = true) :
    StoreGood (ubsanStore fs env slog) := by
  simp only [ubsanStore]
  refine add_StoreGood _ _ _ _ (by decide) (by decide) ?_
  refine add_StoreGood _ _ _ _ (lp_entry_good slog hslog) (by rfl) ?_
  exact load_options_good fs hfs env ubsanKey

theorem ubsanStore_lp (fs : Sys) (env : Store) (slog : Chars) :
    lookupS lpName (ubsanStore fs env slog) = some (quoteVal slog) := by
  simp only [ubsanStore]
  rw [lookupS_add_ne _ lpName "print_stacktrace".data "1".data false
    (by decide)]
  exact lookupS_add_overwrite _ lpName (quoteVal slog)

theorem store_ne_nil_of_lookup (s : Store) (k v : Chars)
    (h : lookupS k s = some v) : s ≠ [] := by
  intro hnil
  rw [hnil] at h
  simp [lookupS] at h

/-- Claim C9 (witness): on the empty base environment the prepared
environment carries the constants, and the skia toggle got its
absent-default. -/
theorem c9_witness :
    lookupS "G_SLICE".data envPrep0 = some "always-malloc".data ∧
    lookupS "XPCOM_DEBUG_BREAK".data envPrep0 = some "warn".data ∧
    lookupS skiaKey envPrep0 = some "1".data ∧
    lookupS rustKey envPrep0 = some "full".data :=
  ⟨(c9_fixed_toggles sysNone [] "t".data "log".data envPrep0 rfl).1,
   (c9_fixed_toggles sysNone [] "t".data "log".data envPrep0
     rfl).2.2.2.2.2.2.2.2.2.2.1,
   (c9_fixed_toggles sysNone [] "t".data "log".data envPrep0
     rfl).2.2.2.2.2.2.2.2.2.2.2.1 rfl,
   (c9_fixed_toggles sysNone [] "t".data "log".data envPrep0
     rfl).2.2.2.2.2.2.2.2.2.2.2.2.2.1 rfl⟩

/-- Claim C3 (counterexample): the forced `log_path` value is the prefix
wrapped in single quotes (`"'%s'" % log_path`), so the option parsed back
out of the resulting `ASAN_OPTIONS` (and `UBSAN_OPTIONS`) does not equal the
prefix `log` itself. -/
theorem c3_counterexample :
    lookupS lpName (loadRaw sysNone []
        ((lookupS asanKey envPrep0).getD [])).1 ≠ some "log".data ∧
    lookupS lpName (loadRaw sysNone []
        ((lookupS asanKey envPrep0).getD [])).1 = some (quoteVal "log".data) ∧
    lookupS lpName (loadRaw sysNone []
        ((lookupS ubsanKey envPrep0).getD [])).1 ≠ some "log".data := by
  decide

/-- Claim C3 (amended): after `prepare_environment`, the `log_path` option
parsed back out of the resulting `ASAN_OPTIONS` and `UBSAN_OPTIONS` values
equals the sanitizer-log prefix wrapped in single quotes, even if the input
environment already set a different `log_path`.  Hypotheses: `abspath`
returns serializable paths, the prefix itself is serializable, the
preparation ran to completion, and reparsing the two produced strings does
not abort on a vanished suppressions file. -/
theorem c3_amended (fs : Sys) (osenv : Store) (target slog : Chars)
    (env' : Store) (strA strU : Chars)
    (hfs : ∀ p, ' ' ∉ fs.abspath p ∧ '=' ∉ fs.abspath p ∧
      colonsGuarded (fs.abspath p) = true)
    (hslog : ' ' ∉ slog ∧ '=' ∉ slog ∧ colonsGuarded (quoteVal slog) = true)
    (h : prepare_environment fs osenv target slog none = Except.ok env')
    (hA : lookupS asanKey env' = some strA)
    (hU : lookupS ubsanKey env' = some strU)
    (hrA : (loadRaw fs [] strA).2 = none)
    (hrU : (loadRaw fs [] strU).2 = none) :
    lookupS lpName (loadRaw fs [] strA).1 = some (quoteVal slog) ∧
    lookupS lpName (loadRaw fs [] strU).1 = some (quoteVal slog) := by
  have hc := prepare_none_ok fs osenv target slog env' h
  obtain ⟨e1, e2, e3, henv'⟩ :=
    configure_ok_parts fs (toggledEnv osenv) target slog env' hc
  have hA' : lookupS asanKey env' =
      some (options (asanStore fs (toggledEnv osenv) slog)) := by
    rw [henv', lookupS_symbolizerStep fs _ target asanKey (by decide)]
    rw [env3C, lookupS_setOpt_ne _ asanKey ubsanKey _ (by decide)]
    rw [env2C, lookupS_setOpt_ne _ asanKey lsanKey _ (by decide)]
    rw [env1C]
    exact lookupS_setOpt_self _ _ _
  have hstrA : strA = options (asanStore fs (toggledEnv osenv) slog) := by
    rw [hA] at hA'
    exact Option.some_inj.mp hA'
  have hU' : lookupS ubsanKey env' =
      some (options
        (ubsanStore fs (env2C fs (toggledEnv osenv) slog) slog)) := by
    rw [henv', lookupS_symbolizerStep fs _ target ubsanKey (by decide)]
    rw [env3C]
    exact lookupS_setOpt_self _ _ _
  have hstrU : strU =
      options (ubsanStore fs (env2C fs (toggledEnv osenv) slog) slog) := by
    rw [hU] at hU'
    exact Option.some_inj.mp hU'
  constructor
  · rw [hstrA] at hrA ⊢
    have hsg := asanStore_good fs (toggledEnv osenv) slog hfs hslog
    have hlp := asanStore_lp fs (toggledEnv osenv) slog
    rw [reload_lookup fs _ lpName (by decide) hsg
      (store_ne_nil_of_lookup _ lpName (quoteVal slog) hlp) hrA]
    exact hlp
  · rw [hstrU] at hrU ⊢
    have hsg := ubsanStore_good fs (env2C fs (toggledEnv osenv) slog) slog
      hfs hslog
    have hlp := ubsanStore_lp fs (env2C fs (toggledEnv osenv) slog) slog
    rw [reload_lookup fs _ lpName (by decide) hsg
      (store_ne_nil_of_lookup _ lpName (quoteVal slog) hlp) hrU]
    exact hlp

/-- Claim C3 (witness): the amended forced-log-path theorem at a concrete
preparation over an empty base environment with prefix `log`. -/
theorem c3_witness :
    lookupS lpName (loadRaw sysConst []
        ((lookupS asanKey envPrepC).getD [])).1 = some (quoteVal "log".data) ∧
    lookupS lpName (loadRaw sysConst []
        ((lookupS ubsanKey envPrepC).getD [])).1 =
      some (quoteVal "log".data) :=
  c3_amended sysConst [] "t".data "log".data envPrepC
    ((lookupS asanKey envPrepC).getD [])
    ((lookupS ubsanKey envPrepC).getD [])
    (fun _ => ⟨(by decide : ' ' ∉ "/tmp/f".data),
      (by decide : '=' ∉ "/tmp/f".data),
      (by decide : colonsGuarded "/tmp/f".data = true)⟩)
    ⟨by decide, by decide, by decide⟩
    rfl rfl rfl rfl rfl

end FFP
